import Mathlib

/-!
Shallow embedding of the `xtend_tuya` multi-manager core.

Source files embedded here:
* `multi_manager/shared/shared_classes.py` — `XTDevice` (local-strategy cache,
  `__setattr__` propagation), `LocalStrategyDict` / `LocalStrategyItemDict`,
  `XTDeviceMap` (process-wide registry, `set_device_key_value*`).
* `multi_manager/shared/threading.py` — `XTThread`, `XTThreadingManager`.
* `multi_manager/multi_manager.py` — `_read_dpId_from_code`, `_read_code_from_dpId`,
  `update_device_cache`, `_update_master_device_map`, `_align_multi_map_devices`,
  `_process_pending_messages`.
* `multi_manager/refactor/message_handler.py` — `convert_device_report_status_list`
  and its resolution helpers.

Python dictionaries are modelled as insertion-ordered association lists
(`lookupA` = `dict.get`: first binding wins; `updateA` = `dict.__setitem__`:
replace in place or append).  Python values appearing in status items and
strategy entries are modelled by the inductive `PyVal` (strings, ints, lists
of strings and `None`); mutation is modelled by explicit state passing.
-/

namespace XT

/-- `dict.get`: return the value bound to the first matching key, if any. -/
def lookupA {α β : Type} [DecidableEq α] : List (α × β) → α → Option β
  | [], _ => none
  | (k, v) :: rest, key => if k = key then some v else lookupA rest key

/-- `dict.__setitem__`: replace the first binding in place, else append. -/
def updateA {α β : Type} [DecidableEq α] : List (α × β) → α → β → List (α × β)
  | [], key, v => [(key, v)]
  | (k, w) :: rest, key, v =>
    if k = key then (key, v) :: rest else (k, w) :: updateA rest key v

/-- `dict.__delitem__` / `dict.pop` on a present key: drop the binding. -/
def removeA {α β : Type} [DecidableEq α] : List (α × β) → α → List (α × β)
  | [], _ => []
  | (k, w) :: rest, key => if k = key then rest else (k, w) :: removeA rest key

/-- Python values occurring in strategy entries and status items. -/
inductive PyVal : Type
  | str (s : String)
  | int (n : Int)
  | strList (l : List String)
  | null
deriving DecidableEq, Repr

/-- One `local_strategy` entry (a `LocalStrategyItemDict`), as an
insertion-ordered dictionary. -/
abbrev Entry := List (String × PyVal)

/-- The `local_strategy` mapping `dpId -> entry` (a `LocalStrategyDict`). -/
abbrev Strategy := List (Int × Entry)

/-- `item.get("status_code")` followed by the truthiness test `if code:` in
`_refresh_local_strategy_cache`: only a non-empty string counts. -/
def statusCodeOf (e : Entry) : Option String :=
  match lookupA e "status_code" with
  | some (.str s) => if s = "" then none else some s
  | _ => none

/-- `item.get("status_code_alias", [])` in `_refresh_local_strategy_cache`. -/
def aliasesOf (e : Entry) : List String :=
  match lookupA e "status_code_alias" with
  | some (.strList l) => l
  | _ => []

/-- One step of the cache rebuild loop body in
`XTDevice._refresh_local_strategy_cache`:
`dpid_to_code[dp_id] = code; code_to_dpid[code] = dp_id;`
then `code_to_dpid[alias] = dp_id` for every alias. -/
def buildStep (acc : List (String × Int) × List (Int × String)) (pr : Int × Entry) :
    List (String × Int) × List (Int × String) :=
  match statusCodeOf pr.2 with
  | none => acc
  | some code =>
    let d2c := updateA acc.2 pr.1 code
    let c2d := updateA acc.1 code pr.1
    let c2d := (aliasesOf pr.2).foldl (fun m a => updateA m a pr.1) c2d
    (c2d, d2c)

/-- The pair (`code_to_dpid`, `dpid_to_code`) that
`_refresh_local_strategy_cache` computes from a strategy mapping. -/
def buildCaches (ls : Strategy) : List (String × Int) × List (Int × String) :=
  ls.foldl buildStep ([], [])

/-- `XTDeviceStatusRange` (only the fields the embedded code reads). -/
structure XTDeviceStatusRange where
  code : String
  dp_id : Int
deriving DecidableEq, Repr

/-- The slice of `XTDevice` that the identifier-resolution cache uses:
`status_range`, the wrapped `_local_strategy`, the two derived lookup
mappings, and the two version counters. -/
structure XTDevice where
  status_range : List (String × XTDeviceStatusRange)
  local_strategy : Strategy
  code_to_dpid : List (String × Int)
  dpid_to_code : List (Int × String)
  local_strategy_version : Int
  local_strategy_cache_version : Int
deriving DecidableEq, Repr

/-- `XTDevice._invalidate_local_strategy_cache`. -/
def invalidateLocalStrategyCache (d : XTDevice) : XTDevice :=
  { d with local_strategy_version := d.local_strategy_version + 1 }

/-- `XTDevice._refresh_local_strategy_cache`. -/
def refreshLocalStrategyCache (d : XTDevice) : XTDevice :=
  let p := buildCaches d.local_strategy
  { d with
    code_to_dpid := p.1
    dpid_to_code := p.2
    local_strategy_cache_version := d.local_strategy_version }

/-- The `local_strategy` property setter: building the `LocalStrategyDict`
wrapper runs `update` (one invalidation), then the setter invalidates once
more and eagerly refreshes. -/
def assignLocalStrategy (d : XTDevice) (ls : Strategy) : XTDevice :=
  refreshLocalStrategyCache
    (invalidateLocalStrategyCache
      (invalidateLocalStrategyCache { d with local_strategy := ls }))

/-- A device as produced by `XTDevice.__init__` (versions start at `0` /
`-1`) followed by the `local_strategy` assignment in the constructor. -/
def initDevice (sr : List (String × XTDeviceStatusRange)) (ls : Strategy) : XTDevice :=
  assignLocalStrategy
    { status_range := sr
      local_strategy := []
      code_to_dpid := []
      dpid_to_code := []
      local_strategy_version := 0
      local_strategy_cache_version := -1 } ls

/-- The mutating dictionary operations that `LocalStrategyDict` and
`LocalStrategyItemDict` override (the `entry…` constructors act on one nested
entry dictionary through `LocalStrategyItemDict`). -/
inductive StratOp : Type
  | setItem (dp : Int) (e : Entry)
  | delItem (dp : Int)
  | clearStrategy
  | updateStrategy (kvs : List (Int × Entry))
  | popStrategy (dp : Int)
  | popitemStrategy
  | entrySet (dp : Int) (k : String) (v : PyVal)
  | entryDel (dp : Int) (k : String)
  | entryClear (dp : Int)
  | entryUpdate (dp : Int) (kvs : List (String × PyVal))
  | entryPop (dp : Int) (k : String)
  | entryPopitem (dp : Int)
deriving DecidableEq, Repr

/-- Whether the operation reaches the wrapper's `_invalidate` call.
Operations that raise `KeyError` first (`del`/`pop` of a missing key,
`popitem` of an empty dict, any entry operation on a missing `dpId`)
never invalidate. -/
def stratOpFires (ls : Strategy) : StratOp → Bool
  | .setItem _ _ => true
  | .delItem dp => (lookupA ls dp).isSome
  | .clearStrategy => true
  | .updateStrategy _ => true
  | .popStrategy dp => (lookupA ls dp).isSome
  | .popitemStrategy => !ls.isEmpty
  | .entrySet dp _ _ => (lookupA ls dp).isSome
  | .entryDel dp k =>
    match lookupA ls dp with
    | some e => (lookupA e k).isSome
    | none => false
  | .entryClear dp => (lookupA ls dp).isSome
  | .entryUpdate dp _ => (lookupA ls dp).isSome
  | .entryPop dp k =>
    match lookupA ls dp with
    | some e => (lookupA e k).isSome
    | none => false
  | .entryPopitem dp =>
    match lookupA ls dp with
    | some e => !e.isEmpty
    | none => false

/-- The new strategy contents after an operation (unchanged when the
operation raises before mutating). -/
def applyStratToContents (ls : Strategy) : StratOp → Strategy
  | .setItem dp e => updateA ls dp e
  | .delItem dp => if (lookupA ls dp).isSome then removeA ls dp else ls
  | .clearStrategy => []
  | .updateStrategy kvs => kvs.foldl (fun acc pr => updateA acc pr.1 pr.2) ls
  | .popStrategy dp => if (lookupA ls dp).isSome then removeA ls dp else ls
  | .popitemStrategy => if ls.isEmpty then ls else ls.dropLast
  | .entrySet dp k v =>
    match lookupA ls dp with
    | some e => updateA ls dp (updateA e k v)
    | none => ls
  | .entryDel dp k =>
    match lookupA ls dp with
    | some e => if (lookupA e k).isSome then updateA ls dp (removeA e k) else ls
    | none => ls
  | .entryClear dp =>
    match lookupA ls dp with
    | some _ => updateA ls dp []
    | none => ls
  | .entryUpdate dp kvs =>
    match lookupA ls dp with
    | some e => updateA ls dp (kvs.foldl (fun acc pr => updateA acc pr.1 pr.2) e)
    | none => ls
  | .entryPop dp k =>
    match lookupA ls dp with
    | some e => if (lookupA e k).isSome then updateA ls dp (removeA e k) else ls
    | none => ls
  | .entryPopitem dp =>
    match lookupA ls dp with
    | some e => if e.isEmpty then ls else updateA ls dp e.dropLast
    | none => ls

/-- Run one mutating dictionary operation against a device's wrapped
`local_strategy`: the wrapper mutates the contents and then calls
`_invalidate_local_strategy_cache` (unless the operation raised first).
The derived caches are never touched here. -/
def applyStratOp (d : XTDevice) (op : StratOp) : XTDevice :=
  let d' := { d with local_strategy := applyStratToContents d.local_strategy op }
  if stratOpFires d.local_strategy op then invalidateLocalStrategyCache d' else d'

/-- The cache-staleness check + conditional rebuild shared by
`MultiManager._read_dpId_from_code` and `MultiManager._read_code_from_dpId`. -/
def refreshIfStale (d : XTDevice) : XTDevice :=
  if d.local_strategy_cache_version ≠ d.local_strategy_version then
    refreshLocalStrategyCache d
  else d

/-- `MultiManager._read_dpId_from_code` (the `status_range` shortcut is taken
before the cache is consulted; `hasattr` guards are always true here). -/
def readDpIdFromCode (d : XTDevice) (code : String) : Option Int × XTDevice :=
  match lookupA d.status_range code with
  | some sr =>
    if sr.dp_id ≠ 0 then (some sr.dp_id, d)
    else
      let d' := refreshIfStale d
      (lookupA d'.code_to_dpid code, d')
  | none =>
    let d' := refreshIfStale d
    (lookupA d'.code_to_dpid code, d')

/-- `MultiManager._read_code_from_dpId`. -/
def readCodeFromDpId (d : XTDevice) (dpId : Int) : Option String × XTDevice :=
  let d' := refreshIfStale d
  (lookupA d'.dpid_to_code dpId, d')

/-- Cache-coherence invariant: the cached version never runs ahead of the
strategy version, and whenever the two versions agree the two derived lookup
mappings are exactly what a rebuild from the current `local_strategy` yields. -/
def CacheInv (d : XTDevice) : Prop :=
  d.local_strategy_cache_version ≤ d.local_strategy_version ∧
    (d.local_strategy_cache_version = d.local_strategy_version →
      d.code_to_dpid = (buildCaches d.local_strategy).1 ∧
        d.dpid_to_code = (buildCaches d.local_strategy).2)

instance (d : XTDevice) : Decidable (CacheInv d) := by
  unfold CacheInv; infer_instance

/-! ## Message handler (`refactor/message_handler.py`)

One raw status item is a Python dict, modelled as an insertion-ordered
association list with string keys (the payloads are JSON-derived). -/

/-- One raw status item. -/
abbrev Item := List (String × PyVal)

/-- `MultiManager._read_dpId_from_code` as invoked with a raw value taken
from a status item: only a string can hit the string-keyed `status_range` /
`code_to_dpid` dictionaries, but the staleness check and conditional rebuild
run regardless. -/
def readDpIdFromCodeV (d : XTDevice) (code : PyVal) : Option Int × XTDevice :=
  match code with
  | .str s => readDpIdFromCode d s
  | _ => (none, refreshIfStale d)

/-- `MultiManager._read_code_from_dpId` as invoked with a raw value:
only an int can hit the int-keyed `dpid_to_code` dictionary. -/
def readCodeFromDpIdV (d : XTDevice) (dpId : PyVal) : Option String × XTDevice :=
  match dpId with
  | .int n => readCodeFromDpId d n
  | _ => (none, refreshIfStale d)

/-- `MessageHandler._extract_initial_state`. -/
def extractInitialState (state : Item) :
    Option PyVal × Option PyVal × Option PyVal :=
  (lookupA state "code", lookupA state "dpId", lookupA state "value")

/-- `MessageHandler._resolve_code_and_dpid`. -/
def resolveCodeAndDpid (d : XTDevice) (code dpId : Option PyVal) :
    (Option PyVal × Option PyVal) × XTDevice :=
  match code, dpId with
  | none, some dv =>
    let p := readCodeFromDpIdV d dv
    ((p.1.map PyVal.str, some dv), p.2)
  | some cv, none =>
    let p := readDpIdFromCodeV d cv
    ((some cv, p.1.map PyVal.int), p.2)
  | c, dp => ((c, dp), d)

/-- `MessageHandler._resolve_code_alias`. -/
def resolveCodeAlias (d : XTDevice) (dpId : PyVal) (code : Option PyVal) :
    Option PyVal × XTDevice :=
  let p := readCodeFromDpIdV d dpId
  match p.1 with
  | some s => (some (.str s), p.2)
  | none => (code, p.2)

/-- The loop body of `MessageHandler._find_code_dpid_from_state_items`:
`int(key)` is modelled by `String.toInt?` (the item keys are JSON strings). -/
def findCodeDpidFromStateItems (d : XTDevice) (state : Item)
    (originalValue : Option PyVal) :
    (Option PyVal × Option PyVal × Option PyVal) × XTDevice :=
  match state with
  | [] => ((none, none, originalValue), d)
  | (key, v) :: rest =>
    match key.toInt? with
    | none => findCodeDpidFromStateItems d rest originalValue
    | some n =>
      let p := readCodeFromDpId d n
      match p.1 with
      | some tempCode => ((some (.str tempCode), some (.int n), some v), p.2)
      | none => findCodeDpidFromStateItems p.2 rest originalValue

/-- `MessageHandler._read_code_dpid_value_from_state` (the two keyword flags
default to `true`; the result mirrors the Python 4-tuple
`code, dpId, value, result_ok`). -/
def readCodeDpidValueFromState (devO : Option XTDevice) (state : Item)
    (failIfDpidNotFound : Bool := true) (failIfCodeNotFound : Bool := true) :
    (Option PyVal × Option PyVal × Option PyVal × Bool) × Option XTDevice :=
  match devO with
  | none =>
    if failIfCodeNotFound || failIfDpidNotFound then ((none, none, none, false), none)
    else ((none, none, lookupA state "value", true), none)
  | some d =>
    let e := extractInitialState state
    let r₁ := resolveCodeAndDpid d e.1 e.2.1
    let code₁ := r₁.1.1
    let dpId₁ := r₁.1.2
    let r₂ :=
      match dpId₁ with
      | some dv => resolveCodeAlias r₁.2 dv code₁
      | none => (code₁, r₁.2)
    let code₂ := r₂.1
    let r₃ :=
      if code₂ = none ∧ dpId₁ = none then
        findCodeDpidFromStateItems r₂.2 state e.2.2
      else ((code₂, dpId₁, e.2.2), r₂.2)
    let code₃ := r₃.1.1
    let dpId₃ := r₃.1.2.1
    let value₃ := r₃.1.2.2
    if code₃ ≠ none ∧ dpId₃ ≠ none then ((code₃, dpId₃, value₃, true), some r₃.2)
    else if (code₃ = none ∧ failIfCodeNotFound) ∨ (dpId₃ = none ∧ failIfDpidNotFound) then
      ((none, none, none, false), some r₃.2)
    else ((code₃, dpId₃, value₃, true), some r₃.2)

/-- The loop body of `MessageHandler.convert_device_report_status_list`:
on success the copied item's `code` / `dpId` / `value` keys are overwritten,
otherwise the item is left as it is (`else: pass`). -/
def convertStep (acc : List Item × Option XTDevice) (item : Item) :
    List Item × Option XTDevice :=
  let r := readCodeDpidValueFromState acc.2 item
  let code := r.1.1
  let dpId := r.1.2.1
  let value := r.1.2.2.1
  let ok := r.1.2.2.2
  if ok then
    let item' :=
      updateA (updateA (updateA item "code" (code.getD .null)) "dpId" (dpId.getD .null))
        "value" (value.getD .null)
    (acc.1 ++ [item'], r.2)
  else (acc.1 ++ [item], r.2)

/-- `MessageHandler.convert_device_report_status_list`.  The
`copy.deepcopy(status_in)` at entry is modelled by value semantics: the
function works on (and returns) copies, the input list is never changed. -/
def convertDeviceReportStatusList (devO : Option XTDevice) (statusIn : List Item) :
    List Item × Option XTDevice :=
  statusIn.foldl convertStep ([], devO)

/-! ## Threading manager (`shared/threading.py`)

A job either returns normally (`outcome = none`) or raises an exception,
modelled by a string message (`outcome = some e`).  `XTThread.call_thread`
wraps the callable in `try/except` and records the exception on the thread.

Two views are embedded.  The sequential view (`startAndWait`) captures the
batch bookkeeping of `start_and_wait`: the finished list is reset, every
queued job runs to completion with its failure captured, and afterwards
`raise_exception_if_needed` re-raises the first captured exception.  The
scheduled view (`XTThreadingManagerC`, `cleanStep`, …) captures the
bounded-concurrency loop of `start_all_threads` / `clean_finished_threads` /
`wait_for_all_threads`: an execution is an interleaving in which, at each
observation of the polling loop, an arbitrary subset of the active jobs has
finished. -/

/-- A unit of work handed to `add_thread`. -/
structure XTJob where
  outcome : Option String
deriving DecidableEq, Repr

/-- An `XTThread` after its target has run: `call_thread` stored the captured
exception (if any) in `self.exception`. -/
structure XTThread where
  job : XTJob
  exception : Option String
deriving DecidableEq, Repr

/-- `XTThread.call_thread`: run the callable, catching any exception and
recording it on the thread instead of letting it escape. -/
def callThread (j : XTJob) : XTThread := ⟨j, j.outcome⟩

/-- The final loop of `wait_for_all_threads`: walk the finished threads and
let `raise_exception_if_needed` re-raise the first recorded exception. -/
def firstException : List XTThread → Option String
  | [] => none
  | t :: rest =>
    match t.exception with
    | some e => some e
    | none => firstException rest

/-- The manager state used by the sequential view. -/
structure XTThreadingManager where
  thread_queue : List XTJob
  thread_finished_list : List XTThread
deriving DecidableEq, Repr

/-- `XTThreadingManager.add_thread` (without `immediate_start`). -/
def addThread (m : XTThreadingManager) (j : XTJob) : XTThreadingManager :=
  { m with thread_queue := m.thread_queue ++ [j] }

/-- `XTThreadingManager.start_and_wait`, sequential view: reset the finished
list, run every queued job to completion (failures captured per thread), then
re-raise the first captured exception, if any. -/
def startAndWait (m : XTThreadingManager) : Option String × XTThreadingManager :=
  let finished := m.thread_queue.map callThread
  (firstException finished, ⟨[], finished⟩)

/-- The manager state used by the scheduled (bounded-concurrency) view. -/
structure XTThreadingManagerC where
  thread_queue : List XTJob
  thread_active_list : List XTJob
  thread_finished_list : List XTThread
  max_concurrency : Option Nat
deriving DecidableEq, Repr

/-- The loop guard of `start_all_threads`:
`max_concurrency is not None and len(thread_active_list) >= max_concurrency`. -/
def capReached (cap : Option Nat) (active : Nat) : Bool :=
  match cap with
  | none => false
  | some k => active ≥ k

/-- The loop of `XTThreadingManager.start_all_threads` on the (queue,
active-list) pair: pop queued jobs from the front and start them until the
queue is empty or the cap is reached. -/
def startLoop (cap : Option Nat) : List XTJob → List XTJob → List XTJob × List XTJob
  | [], active => ([], active)
  | j :: rest, active =>
    if capReached cap active.length then (j :: rest, active)
    else startLoop cap rest (active ++ [j])

/-- `XTThreadingManager.start_all_threads` (also stores `max_concurrency`). -/
def startAllThreads (cap : Option Nat) (s : XTThreadingManagerC) : XTThreadingManagerC :=
  let p := startLoop cap s.thread_queue s.thread_active_list
  { s with thread_queue := p.1, thread_active_list := p.2, max_concurrency := cap }

/-- Jobs submitted but not yet finished (queued or in flight). -/
def totalPending (s : XTThreadingManagerC) : Nat :=
  s.thread_queue.length + s.thread_active_list.length

/-- The state invariant maintained while `start_and_wait` runs with cap `k`:
the stored cap is `k`, at most `k` jobs are in flight, and while jobs are
queued the in-flight list is saturated. -/
def InvC (k : Nat) (s : XTThreadingManagerC) : Prop :=
  s.max_concurrency = some k ∧ s.thread_active_list.length ≤ k ∧
    (s.thread_queue ≠ [] → s.thread_active_list.length = k)

/-- Keep the list entries whose mask bit is set. -/
def selectMask {α : Type} : List α → List Bool → List α
  | [], _ => []
  | _, [] => []
  | x :: xs, b :: bs => if b then x :: selectMask xs bs else selectMask xs bs

/-- Keep the list entries whose mask bit is clear. -/
def rejectMask {α : Type} : List α → List Bool → List α
  | [], _ => []
  | l, [] => l
  | x :: xs, b :: bs => if b then rejectMask xs bs else x :: rejectMask xs bs

/-- One observation of `clean_finished_threads` inside the
`wait_for_all_threads` polling loop.  The mask says which active jobs have
finished by this observation; they are joined, moved to the finished list
(their exceptions already captured by `call_thread`), and — if at least one
thread was removed — `start_all_threads` refills from the queue. -/
def cleanStep (s : XTThreadingManagerC) (mask : List Bool) : XTThreadingManagerC :=
  let fin := selectMask s.thread_active_list mask
  let s' :=
    { s with
      thread_active_list := rejectMask s.thread_active_list mask
      thread_finished_list := s.thread_finished_list ++ fin.map callThread }
  if fin.isEmpty then s' else startAllThreads s.max_concurrency s'

/-- A whole polling run: one `cleanStep` per observation. -/
def runSchedule (s : XTThreadingManagerC) (masks : List (List Bool)) : XTThreadingManagerC :=
  masks.foldl cleanStep s

/-- A schedule is admissible for a state when every mask matches the active
list it observes, and fair when it reports at least one finished job whenever
some job is active (every job terminates, so the polling loop eventually
observes a completion). -/
def fairSchedule (s : XTThreadingManagerC) : List (List Bool) → Bool
  | [] => true
  | mask :: rest =>
    (mask.length = s.thread_active_list.length) &&
      (s.thread_active_list.isEmpty || mask.any (fun b => b)) &&
      fairSchedule (cleanStep s mask) rest

/-- `XTThreadingManager.start_and_wait` under the scheduled view: reset the
finished list, start up to `cap` jobs, poll under the schedule, and
(once the active list is empty, which is when `wait_for_all_threads` stops
polling) re-raise the first captured exception of the finished list. -/
def startAndWaitC (cap : Option Nat) (m : XTThreadingManagerC)
    (masks : List (List Bool)) : Option String × XTThreadingManagerC :=
  let m1 := startAllThreads cap { m with thread_finished_list := [] }
  let m2 := runSchedule m1 masks
  (firstException m2.thread_finished_list, m2)

/-! ## Cross-map propagation (`shared_classes.py`: `XTDevice.__setattr__`,
`XTDeviceMap.set_device_key_value_multimap`, `XTDeviceMap.set_device_key_value`;
`multi_manager.py`: `_align_multi_map_devices`)

Here a device is viewed as its identifier plus its instance attribute
dictionary (`vars(device)`), with attribute values drawn from an arbitrary
type `V` with decidable equality.  Python object identity is modelled by a
store: registered maps hold store indices, and the master map shares indices
with the per-source maps (in `_update_master_device_map` the master map
stores the very same objects).  The mutual recursion
`setattr -> set_device_key_value_multimap -> set_device_key_value -> setattr`
is embedded with an explicit recursion-depth budget (`fuel`); entry points use
a budget (`bigFuel`, the store size) that the proofs show is never exhausted,
because a record is only reassigned while its value differs from the
propagated one.  `bcasts` counts the invocations of
`set_device_key_value_multimap`, making the broadcast re-triggering
observable.  The `original_device` mirror write targets a foreign
(non-`XTDevice`) object (`from_compatible_device` returns early for
`XTDevice` inputs), so it never re-enters propagation and is not part of the
registered maps; it is omitted. -/

/-- `XTDevice.FIELDS_TO_EXCLUDE_FROM_SYNC`. -/
def FIELDS_TO_EXCLUDE_FROM_SYNC : List String :=
  ["id", "device_map", "device_source_priority", "original_device", "source",
    "code_to_dpid", "dpid_to_code", "_local_strategy",
    "_local_strategy_version", "_local_strategy_cache_version"]

/-- A device as seen by propagation: its id and its attribute dictionary. -/
structure DeviceRec (V : Type) where
  id : String
  attrs : List (String × V)
deriving DecidableEq, Repr

instance {V : Type} : Inhabited (DeviceRec V) := ⟨⟨"", []⟩⟩

/-- The process-wide propagation state: the object store, the registered maps
(`XTDeviceMap.master_device_map`, each map a list of store indices), and the
count of `set_device_key_value_multimap` invocations. -/
structure PropState (V : Type) where
  store : List (DeviceRec V)
  maps : List (List Nat)
  bcasts : Nat
deriving Repr

variable {V : Type}

/-- Dereference a store index. -/
def getDev (st : PropState V) (r : Nat) : DeviceRec V := st.store.getD r default

/-- `getattr device k` (`none` = attribute absent, i.e. `hasattr` is false). -/
def getAttr [DecidableEq V] (d : DeviceRec V) (k : String) : Option V :=
  lookupA d.attrs k

/-- `super().__setattr__(attr, value)`: the plain, non-propagating part. -/
def plainSetattr [DecidableEq V] (st : PropState V) (r : Nat) (k : String) (v : V) :
    PropState V :=
  { st with
    store := st.store.set r
      (let d := getDev st r
       { d with attrs := updateA d.attrs k v }) }

/-- `device_map.get(device_id)` for the map at registry index `i`: the maps
are keyed by the devices' ids. -/
def findRef (st : PropState V) (i : Nat) (devId : String) : Option Nat :=
  (st.maps.getD i []).find? (fun r => (getDev st r).id == devId)

/-- `XTDeviceMap.set_device_key_value` for the map at registry index `i`,
parameterised by the behaviour `nested` of the recursive
`set_device_key_value_multimap` invocation: if the map holds a record with
the id, the attribute exists and its current value differs, `setattr` runs —
the plain write, then (the key being non-excluded) another broadcast keyed by
`self.id` (`bcasts` counts the broadcast invocations). -/
def skvStep [DecidableEq V] (nested : PropState V → String → String → V → PropState V)
    (devId k : String) (v : V) (st : PropState V) (i : Nat) : PropState V :=
  if k ∈ FIELDS_TO_EXCLUDE_FROM_SYNC then st
  else
    match findRef st i devId with
    | none => st
    | some r =>
      let d := getDev st r
      match getAttr d k with
      | none => st
      | some w =>
        if w = v then st
        else
          let st1 := plainSetattr st r k v
          let st2 := { st1 with bcasts := st1.bcasts + 1 }
          nested st2 d.id k v

/-- The loop of `set_device_key_value_multimap`: run `set_device_key_value`
on every registered map in registry order. -/
def skvLoop [DecidableEq V] (nested : PropState V → String → String → V → PropState V)
    (st : PropState V) (devId k : String) (v : V) : PropState V :=
  (List.range st.maps.length).foldl (fun s i => skvStep nested devId k v s i) st

/-- The broadcast with an explicit recursion-depth budget: each nesting level
of `set_device_key_value_multimap` spends one unit.  Entry points use a
budget the proofs show sufficient (a record is only reassigned while its
value differs from the propagated one, so the recursion depth is bounded by
the number of records that still differ). -/
def skvBroadcast [DecidableEq V] : Nat → PropState V → String → String → V → PropState V
  | 0, st, _, _, _ => st
  | fuel + 1, st, devId, k, v => skvLoop (skvBroadcast fuel) st devId k v

/-- `XTDeviceMap.set_device_key_value_multimap`. -/
def setKeyValueMultimap [DecidableEq V] (fuel : Nat) (st : PropState V)
    (devId k : String) (v : V) : PropState V :=
  let st' := { st with bcasts := st.bcasts + 1 }
  if k ∈ FIELDS_TO_EXCLUDE_FROM_SYNC then st'
  else skvBroadcast fuel st' devId k v

/-- Recursion budget that the proofs show is sufficient: one unit per record
in the store. -/
def bigFuel (st : PropState V) : Nat := st.store.length

/-- `XTDevice.__setattr__` on the record at store index `r`: the plain write,
then (for a non-excluded attribute) the broadcast keyed by `self.id`. -/
def xtSetattr [DecidableEq V] (st : PropState V) (r : Nat) (k : String) (v : V) :
    PropState V :=
  let st1 := plainSetattr st r k v
  if k ∈ FIELDS_TO_EXCLUDE_FROM_SYNC then st1
  else setKeyValueMultimap (bigFuel st1) st1 (getDev st1 r).id k v

/-- The inner loop of `MultiManager._align_multi_map_devices` for one master
record: `for key, value in vars(device).items(): setattr(device, key, value)`.
(The record's own dictionary is not changed by these self-assignments, so
iterating a snapshot of it is faithful.) -/
def alignDevice [DecidableEq V] (st : PropState V) (r : Nat) : PropState V :=
  (getDev st r).attrs.foldl (fun s kv => xtSetattr s r kv.1 kv.2) st

/-- `MultiManager._align_multi_map_devices`: realign every record of the
master map.  `_enable_multi_map_device_alignment` registers the master map
last, so it is the last entry of the registry. -/
def alignMultiMapDevices [DecidableEq V] (st : PropState V) : PropState V :=
  (st.maps.getLastD []).foldl alignDevice st

/-- Whether store index `r` is a record some registered map resolves for
`devId` whose attribute `k` exists and still differs from `v` — the records
the broadcast will reassign. -/
def differsAt [DecidableEq V] (st : PropState V) (devId k : String) (v : V)
    (r : Nat) : Bool :=
  ((List.range st.maps.length).any fun j => findRef st j devId == some r) &&
    (match getAttr (getDev st r) k with
     | some w => decide (w ≠ v)
     | none => false)

/-- Number of records a broadcast of `(devId, k, v)` still has to reassign;
it bounds the recursion depth of the broadcast. -/
def differCount [DecidableEq V] (st : PropState V) (devId k : String) (v : V) : Nat :=
  ((Finset.range st.store.length).filter fun r => differsAt st devId k v r = true).card

/-- Registered maps reference the store in bounds. -/
def WFRefs (st : PropState V) : Prop :=
  ∀ mp ∈ st.maps, ∀ r ∈ mp, r < st.store.length

/-- Well-formedness of a propagation state: registered maps reference the
store in bounds, and every record's attribute dictionary has no duplicate
keys (it models a Python `__dict__`). -/
def WFState (st : PropState V) : Prop :=
  WFRefs st ∧ ∀ d ∈ st.store, (d.attrs.map Prod.fst).Nodup

/-- The write a broadcast performs on a record: key `k` set to `v`. -/
def updDev [DecidableEq V] (k : String) (v : V) (d : DeviceRec V) : DeviceRec V :=
  { d with attrs := updateA d.attrs k v }

/-- All registered views of `devId` agree with `v` at `k` (wherever the
attribute exists). -/
def AlignedTo [DecidableEq V] (st : PropState V) (devId k : String) (v : V) : Prop :=
  ∀ j r, findRef st j devId = some r → ∀ w, getAttr (getDev st r) k = some w → w = v

/-- How a broadcast of `(devId, k, v)` may evolve the state: the registry is
untouched and every record is either untouched or — if it is a `devId`
record that has the attribute — has exactly its `k` attribute set to `v`. -/
def FrameRel [DecidableEq V] (devId k : String) (v : V) (st st' : PropState V) : Prop :=
  st'.maps = st.maps ∧ st'.store.length = st.store.length ∧
    ∀ r, getDev st' r = getDev st r ∨
      ((getDev st r).id = devId ∧ (∃ w, getAttr (getDev st r) k = some w) ∧
        getDev st' r = updDev k v (getDev st r))

/-! ## Stateless recomputations (spec-side characterisations)

The following functions recompute, from the current `status_range` /
`local_strategy` contents alone, the answers that the stateful lookup code
above produces; the theorems below prove the two agree whenever the device
satisfies `CacheInv`.  They exist so that cache-consistency and per-item
independence can be stated. -/

/-- What `_read_dpId_from_code` answers, computed from current contents. -/
def dpIdPure (sr : List (String × XTDeviceStatusRange)) (ls : Strategy)
    (code : String) : Option Int :=
  match lookupA sr code with
  | some r => if r.dp_id ≠ 0 then some r.dp_id else lookupA (buildCaches ls).1 code
  | none => lookupA (buildCaches ls).1 code

/-- What `_read_code_from_dpId` answers, computed from current contents. -/
def codePure (ls : Strategy) (dpId : Int) : Option String :=
  lookupA (buildCaches ls).2 dpId

/-- `dpIdPure` on a raw value. -/
def dpIdPureV (sr : List (String × XTDeviceStatusRange)) (ls : Strategy)
    (v : PyVal) : Option Int :=
  match v with
  | .str s => dpIdPure sr ls s
  | _ => none

/-- `codePure` on a raw value. -/
def codePureV (ls : Strategy) (v : PyVal) : Option String :=
  match v with
  | .int n => codePure ls n
  | _ => none

/-- Stateless recomputation of `_find_code_dpid_from_state_items`. -/
def findPure (ls : Strategy) :
    Item → Option PyVal → Option PyVal × Option PyVal × Option PyVal
  | [], orig => (none, none, orig)
  | (key, v) :: rest, orig =>
    match key.toInt? with
    | none => findPure ls rest orig
    | some n =>
      match codePure ls n with
      | some c => (some (.str c), some (.int n), some v)
      | none => findPure ls rest orig

/-- Stateless recomputation of `_read_code_dpid_value_from_state` for a
present device. -/
def resolveStatePure (sr : List (String × XTDeviceStatusRange)) (ls : Strategy)
    (state : Item) (failDp failCode : Bool) :
    Option PyVal × Option PyVal × Option PyVal × Bool :=
  let e := extractInitialState state
  let p₁ :=
    match e.1, e.2.1 with
    | none, some dv => ((codePureV ls dv).map PyVal.str, some dv)
    | some cv, none => (some cv, (dpIdPureV sr ls cv).map PyVal.int)
    | c, dp => (c, dp)
  let code₂ :=
    match p₁.2 with
    | some dv =>
      match codePureV ls dv with
      | some s => some (PyVal.str s)
      | none => p₁.1
    | none => p₁.1
  let r₃ :=
    if code₂ = none ∧ p₁.2 = none then findPure ls state e.2.2
    else (code₂, p₁.2, e.2.2)
  if r₃.1 ≠ none ∧ r₃.2.1 ≠ none then (r₃.1, r₃.2.1, r₃.2.2, true)
  else if (r₃.1 = none ∧ failCode) ∨ (r₃.2.1 = none ∧ failDp) then
    (none, none, none, false)
  else (r₃.1, r₃.2.1, r₃.2.2, true)

/-- Stateless recomputation of one `convert_device_report_status_list` loop
iteration: the converted item on success, the untouched item on failure. -/
def resolveItemPure (sr : List (String × XTDeviceStatusRange)) (ls : Strategy)
    (item : Item) : Item :=
  let r := resolveStatePure sr ls item true true
  if r.2.2.2 then
    updateA (updateA (updateA item "code" (r.1.getD .null)) "dpId" (r.2.1.getD .null))
      "value" (r.2.2.1.getD .null)
  else item

/-! ## Master map rebuild and pending messages (`multi_manager.py`) -/

/-- `MultiManager._update_master_device_map`: for every per-source map of the
cycle, insert each record whose id the master map does not yet hold.  Records
already in the master map are kept; nothing is ever removed
(`update_device_cache` never clears `self.master_device_map` — the
`XTDeviceMap.clear_master_device_map()` call at the start of the cycle empties
the process-wide *registry*, a different object). -/
def updateMasterDeviceMap {D : Type} (master : List (String × D))
    (sourceMaps : List (List (String × D))) : List (String × D) :=
  sourceMaps.foldl
    (fun acc mp =>
      mp.foldl
        (fun acc2 pr => if (lookupA acc2 pr.1).isSome then acc2 else acc2 ++ [pr])
        acc)
    master

/-- Observable events of the inbound message router, for a payload type `M`. -/
inductive RouterEvent (M : Type) : Type
  | markReady
  | bufferMsg (source : String) (payload : M)
  | deliver (source : String) (payload : M)
  | clearBuffer
deriving DecidableEq, Repr

/-- The message-routing state of `MultiManager`, instrumented with an event
trace. -/
structure RouterState (M : Type) where
  is_ready_for_messages : Bool
  pending_messages : List (String × M)
  trace : List (RouterEvent M)
deriving DecidableEq, Repr

/-- `MessageHandler.on_message`: while the system is not ready the pair is
appended to `pending_messages`; once ready the message goes down the Live
path (id extraction, normalization, status-list registration, forwarding),
recorded here as a `deliver` event. -/
def onMessage {M : Type} (st : RouterState M) (source : String) (msg : M) :
    RouterState M :=
  if st.is_ready_for_messages then
    { st with trace := st.trace ++ [.deliver source msg] }
  else
    { st with
      pending_messages := st.pending_messages ++ [(source, msg)]
      trace := st.trace ++ [.bufferMsg source msg] }

/-- `MultiManager._process_pending_messages`: set `is_ready_for_messages`
*first*, then replay the buffered pairs through `on_message`, then clear the
buffer.  (Because the flag is already set, the replay appends nothing to
`pending_messages`, so folding over a snapshot of the list is faithful to the
Python iteration over the live list.) -/
def processPendingMessages {M : Type} (st : RouterState M) : RouterState M :=
  let st1 := { st with is_ready_for_messages := true, trace := st.trace ++ [.markReady] }
  let st2 := st.pending_messages.foldl (fun a pr => onMessage a pr.1 pr.2) st1
  { st2 with pending_messages := [], trace := st2.trace ++ [.clearBuffer] }

/-- The event order asserted by the spec for the Buffering→Live transition:
replay every buffered pair, then clear the buffer, then mark readiness. -/
def specClaimedTrace {M : Type} (pending : List (String × M)) : List (RouterEvent M) :=
  pending.map (fun pr => .deliver pr.1 pr.2) ++ [.clearBuffer, .markReady]

/-! ## Concrete fixtures used by counterexamples and witnesses -/

/-- A device whose strategy maps dpId 7 to code `"temp"` while its
`status_range` entry for `"temp"` carries `dp_id = 5`. -/
def c2exDevice : XTDevice :=
  initDevice [("temp", ⟨"temp", 5⟩)] [(7, [("status_code", .str "temp")])]

/-- A fresh device after one strategy mutation that does not affect the
derived lookup mappings (the inserted entry has no `status_code`). -/
def c7exDevice : XTDevice :=
  applyStratOp (initDevice [] []) (.setItem 1 [("foo", .int 3)])

/-- A device whose strategy maps dpId 7 to code `"temp"` (no status-range
shortcuts). -/
def c8exDevice : XTDevice := initDevice [] [(7, [("status_code", .str "temp")])]

/-- Two registered maps holding distinct records for device id `"d"` whose
`"name"` values differ. -/
def c6exState : PropState Nat :=
  ⟨[⟨"d", [("name", 0)]⟩, ⟨"d", [("name", 1)]⟩], [[0], [1]], 0⟩

/-- Two per-source maps with differing records for id `"d"` plus the master
map, which shares the first record (as `_update_master_device_map` stores the
same objects). -/
def c1exState : PropState Nat :=
  ⟨[⟨"d", [("name", 0)]⟩, ⟨"d", [("name", 1)]⟩], [[0], [1], [0]], 0⟩

/-! # Theorems -/

theorem lookupA_isSome_iff_mem {α β : Type} [DecidableEq α] (l : List (α × β)) (k : α) :
    (lookupA l k).isSome ↔ k ∈ l.map Prod.fst := by
  induction l with
  | nil => simp [lookupA]
  | cons pr rest ih =>
    by_cases h : pr.1 = k
    · simp [lookupA, h]
    · simp [lookupA, h, ih, Ne.symm h]

/-! ## C4: master map rebuild -/

theorem insert_absent_mem {D : Type} (mp : List (String × D)) (acc : List (String × D))
    (id : String) :
    (id ∈ ((mp.foldl
        (fun acc2 pr => if (lookupA acc2 pr.1).isSome then acc2 else acc2 ++ [pr])
        acc).map Prod.fst)) ↔
      id ∈ acc.map Prod.fst ∨ id ∈ mp.map Prod.fst := by
  induction mp generalizing acc with
  | nil => simp
  | cons pr rest ih =>
    simp only [List.foldl_cons]
    by_cases hp : (lookupA acc pr.1).isSome = true
    · rw [if_pos hp, ih]
      have hmem : pr.1 ∈ acc.map Prod.fst := (lookupA_isSome_iff_mem acc pr.1).1 hp
      simp only [List.map_cons, List.mem_cons]
      constructor
      · rintro (h | h)
        · exact Or.inl h
        · exact Or.inr (Or.inr h)
      · rintro (h | h | h)
        · exact Or.inl h
        · exact Or.inl (h ▸ hmem)
        · exact Or.inr h
    · rw [if_neg hp, ih]
      simp only [List.map_append, List.mem_append, List.map_cons, List.mem_cons,
        List.map_nil, List.not_mem_nil, or_false]
      tauto

/-- C4 (amended): `_update_master_device_map` only ever *adds* records: after
the cycle the master map holds an id iff it held it before the cycle or some
per-source map of the cycle reports it.  Records from earlier cycles are
never removed (nothing in `update_device_cache` clears
`self.master_device_map`). -/
theorem update_master_device_map_ids {D : Type} (master : List (String × D))
    (sourceMaps : List (List (String × D))) (id : String) :
    id ∈ (updateMasterDeviceMap master sourceMaps).map Prod.fst ↔
      id ∈ master.map Prod.fst ∨ ∃ mp ∈ sourceMaps, id ∈ mp.map Prod.fst := by
  induction sourceMaps generalizing master with
  | nil => simp [updateMasterDeviceMap]
  | cons mp rest ih =>
    unfold updateMasterDeviceMap at ih ⊢
    rw [List.foldl_cons, ih, insert_absent_mem]
    constructor
    · rintro ((h | h) | ⟨m, hm, h⟩)
      · exact Or.inl h
      · exact Or.inr ⟨mp, List.mem_cons_self .., h⟩
      · exact Or.inr ⟨m, List.mem_cons_of_mem _ hm, h⟩
    · rintro (h | ⟨m, hm, h⟩)
      · exact Or.inl (Or.inl h)
      · rcases List.mem_cons.1 hm with rfl | hm'
        · exact Or.inl (Or.inr h)
        · exact Or.inr ⟨m, hm', h⟩

/-- C4 (counterexample): a master map holding id `"old"` from an earlier
cycle keeps it through a cycle whose only per-source map is empty, so after
the cycle the master map does *not* contain exactly the ids present in the
per-source maps of that cycle. -/
theorem update_master_keeps_stale_id :
    (updateMasterDeviceMap [("old", (0 : Nat))] [([] : List (String × Nat))]).map Prod.fst
        = ["old"] ∧
      (([] : List (String × Nat)).map Prod.fst = []) := by
  exact ⟨rfl, rfl⟩

/-! ## C5: pending-message replay -/

theorem replay_when_ready {M : Type} (l : List (String × M)) (st : RouterState M)
    (h : st.is_ready_for_messages = true) :
    l.foldl (fun a pr => onMessage a pr.1 pr.2) st =
      { st with trace := st.trace ++ l.map (fun pr => .deliver pr.1 pr.2) } := by
  induction l generalizing st with
  | nil => simp
  | cons pr rest ih =>
    rw [List.foldl_cons]
    have hstep : onMessage st pr.1 pr.2 =
        { st with trace := st.trace ++ [.deliver pr.1 pr.2] } := by
      simp [onMessage, h]
    rw [hstep, ih _ (by simp [h])]
    simp

/-- C5 (amended): on the Buffering→Live transition, readiness is marked
*first*, then every buffered (source, payload) pair is replayed exactly once,
in arrival order, through the Live path, and then the buffer is cleared.
(Marking readiness first is what sends the replay down the Live path instead
of re-buffering it.) -/
theorem process_pending_messages_order {M : Type} (st : RouterState M) :
    (processPendingMessages st).trace =
        st.trace ++ [.markReady] ++
          st.pending_messages.map (fun pr => .deliver pr.1 pr.2) ++ [.clearBuffer] ∧
      (processPendingMessages st).pending_messages = [] ∧
      (processPendingMessages st).is_ready_for_messages = true := by
  simp only [processPendingMessages]
  rw [replay_when_ready _ _ (by rfl)]
  simp

/-- C5 (counterexample): with one buffered message the code's event order is
mark-ready, deliver, clear-buffer — not the claimed deliver, clear-buffer,
mark-ready. -/
theorem process_pending_messages_marks_ready_first :
    (processPendingMessages (⟨false, [("src", (1 : Nat))], []⟩ : RouterState Nat)).trace
        = [.markReady, .deliver "src" 1, .clearBuffer] ∧
      (processPendingMessages (⟨false, [("src", (1 : Nat))], []⟩ : RouterState Nat)).trace
        ≠ specClaimedTrace [("src", (1 : Nat))] := by
  constructor
  · rfl
  · decide

/-! ## C3: failure capture and re-raise in the threading manager -/

theorem firstException_map_none_iff (l : List XTJob) :
    firstException (l.map callThread) = none ↔ ∀ j ∈ l, j.outcome = none := by
  induction l with
  | nil => simp [firstException]
  | cons j rest ih =>
    cases h : j.outcome with
    | none => simp [callThread, firstException, h, ih]
    | some e => simp [callThread, firstException, h]

theorem foldl_addThread_queue (jobs : List XTJob) (m : XTThreadingManager) :
    (jobs.foldl addThread m).thread_queue = m.thread_queue ++ jobs := by
  induction jobs generalizing m with
  | nil => simp
  | cons j rest ih => simp [addThread, ih]

/-- C3 (confirmed): a job's exception is captured on its own thread and does
not escape the job's execution context (`call_thread` records it and every
queued job still runs to completion); after the batch finishes,
`start_and_wait` re-raises the first captured exception — it raises nothing
iff no job of the batch failed — and a subsequent fresh call whose own jobs
all succeed raises nothing, because the finished list is reset per batch. -/
theorem start_and_wait_failure_semantics (m : XTThreadingManager) (jobs2 : List XTJob) :
    ((startAndWait m).2.thread_finished_list = m.thread_queue.map callThread) ∧
      ((startAndWait m).1 = firstException (m.thread_queue.map callThread)) ∧
      ((startAndWait m).1 = none ↔ ∀ j ∈ m.thread_queue, j.outcome = none) ∧
      ((∀ j ∈ jobs2, j.outcome = none) →
        (startAndWait (jobs2.foldl addThread (startAndWait m).2)).1 = none) := by
  refine ⟨rfl, rfl, firstException_map_none_iff _, fun h2 => ?_⟩
  have hq : (jobs2.foldl addThread (startAndWait m).2).thread_queue = jobs2 := by
    rw [foldl_addThread_queue]
    simp [startAndWait]
  rw [startAndWait, hq]
  exact (firstException_map_none_iff jobs2).2 h2

/-- C3 (witness): a failing batch re-raises its captured exception; adding a
succeeding job afterwards and running a fresh batch raises nothing. -/
theorem start_and_wait_failure_semantics_witness :
    ((startAndWait ⟨[⟨some "boom"⟩], []⟩).1 = some "boom") ∧
      ((startAndWait (([⟨none⟩] : List XTJob).foldl addThread
          (startAndWait ⟨[⟨some "boom"⟩], []⟩).2)).1 = none) := by
  refine ⟨by decide, ?_⟩
  exact (start_and_wait_failure_semantics ⟨[⟨some "boom"⟩], []⟩ [⟨none⟩]).2.2.2 (by decide)

/-! ## C7: lazy invalidation of the local-strategy caches -/

theorem cacheInv_refresh (d : XTDevice) : CacheInv (refreshLocalStrategyCache d) :=
  ⟨le_refl _, fun _ => ⟨rfl, rfl⟩⟩

theorem cacheInv_init (sr : List (String × XTDeviceStatusRange)) (ls : Strategy) :
    CacheInv (initDevice sr ls) := by
  unfold initDevice assignLocalStrategy
  exact cacheInv_refresh _

theorem contents_eq_of_not_fires (ls : Strategy) (op : StratOp)
    (h : stratOpFires ls op = false) : applyStratToContents ls op = ls := by
  cases op with
  | setItem dp e => simp [stratOpFires] at h
  | delItem dp => simp_all [stratOpFires, applyStratToContents]
  | clearStrategy => simp [stratOpFires] at h
  | updateStrategy kvs => simp [stratOpFires] at h
  | popStrategy dp => simp_all [stratOpFires, applyStratToContents]
  | popitemStrategy => simp_all [stratOpFires, applyStratToContents]
  | entrySet dp k v =>
    cases hl : lookupA ls dp <;> simp_all [stratOpFires, applyStratToContents]
  | entryDel dp k =>
    cases hl : lookupA ls dp <;> simp_all [stratOpFires, applyStratToContents]
  | entryClear dp =>
    cases hl : lookupA ls dp <;> simp_all [stratOpFires, applyStratToContents]
  | entryUpdate dp kvs =>
    cases hl : lookupA ls dp <;> simp_all [stratOpFires, applyStratToContents]
  | entryPop dp k =>
    cases hl : lookupA ls dp <;> simp_all [stratOpFires, applyStratToContents]
  | entryPopitem dp =>
    cases hl : lookupA ls dp <;> simp_all [stratOpFires, applyStratToContents]

/-- C7 (amended): every mutating dictionary operation on the wrapped
`localStrategy` — on the strategy mapping itself or on a nested entry
dictionary — that actually mutates (does not raise `KeyError` first)
increments `strategyVersion` by one and leaves the derived lookup mappings
and `cacheVersion` untouched (no eager recomputation); operations that raise
first change nothing.  This preserves the invariant that
`cacheVersion ≤ strategyVersion` and that *if* the two versions agree the
lookup mappings match a rebuild from the current contents.  The converse
implication claimed by the spec (caches valid only if the versions agree)
does not hold — see the counterexample. -/
theorem strat_mutation_invalidates (d : XTDevice) (op : StratOp) :
    ((applyStratOp d op).code_to_dpid = d.code_to_dpid ∧
      (applyStratOp d op).dpid_to_code = d.dpid_to_code ∧
      (applyStratOp d op).local_strategy_cache_version = d.local_strategy_cache_version ∧
      (applyStratOp d op).status_range = d.status_range) ∧
    (stratOpFires d.local_strategy op = true →
      (applyStratOp d op).local_strategy_version = d.local_strategy_version + 1) ∧
    (stratOpFires d.local_strategy op = false → applyStratOp d op = d) ∧
    (CacheInv d → CacheInv (applyStratOp d op)) := by
  refine ⟨?_, fun hf => ?_, fun hf => ?_, fun hinv => ?_⟩
  · unfold applyStratOp invalidateLocalStrategyCache
    split <;> exact ⟨rfl, rfl, rfl, rfl⟩
  · simp [applyStratOp, hf, invalidateLocalStrategyCache]
  · simp only [applyStratOp, hf, Bool.false_eq_true, if_false]
    rw [contents_eq_of_not_fires _ _ hf]
  · obtain ⟨hle, himp⟩ := hinv
    cases hf : stratOpFires d.local_strategy op with
    | false =>
      have heq : applyStratOp d op = d := by
        simp only [applyStratOp, hf, Bool.false_eq_true, if_false]
        rw [contents_eq_of_not_fires _ _ hf]
      rw [heq]
      exact ⟨hle, himp⟩
    | true =>
      have hver : (applyStratOp d op).local_strategy_version =
          d.local_strategy_version + 1 := by
        simp [applyStratOp, hf, invalidateLocalStrategyCache]
      have hcache : (applyStratOp d op).local_strategy_cache_version =
          d.local_strategy_cache_version := by
        unfold applyStratOp invalidateLocalStrategyCache
        split <;> rfl
      constructor
      · rw [hver, hcache]; omega
      · intro heq
        rw [hver, hcache] at heq
        omega

/-- C7 (witness): a strategy insertion on a fresh device fires the
invalidation, bumps `strategyVersion` by one and preserves the invariant. -/
theorem strat_mutation_invalidates_witness :
    (stratOpFires (initDevice [] []).local_strategy (.setItem 1 []) = true) ∧
      ((applyStratOp (initDevice [] []) (.setItem 1 [])).local_strategy_version =
        (initDevice [] []).local_strategy_version + 1) ∧
      CacheInv (applyStratOp (initDevice [] []) (.setItem 1 [])) :=
  ⟨by decide,
    (strat_mutation_invalidates (initDevice [] []) (.setItem 1 [])).2.1 (by decide),
    (strat_mutation_invalidates (initDevice [] []) (.setItem 1 [])).2.2.2 (by decide)⟩

/-- C7 (counterexample): after inserting a strategy entry that carries no
`status_code`, the versions differ but the lookup mappings still match a
rebuild from the current contents — the caches are valid while
`cacheVersion ≠ strategyVersion`, refuting the claimed "if and only if". -/
theorem caches_valid_with_version_mismatch :
    c7exDevice.local_strategy_cache_version ≠ c7exDevice.local_strategy_version ∧
      c7exDevice.code_to_dpid = (buildCaches c7exDevice.local_strategy).1 ∧
      c7exDevice.dpid_to_code = (buildCaches c7exDevice.local_strategy).2 := by
  decide

/-! ## C2: lazy rebuild on lookup -/

theorem refreshIfStale_char (d : XTDevice) (h : CacheInv d) :
    (refreshIfStale d).code_to_dpid = (buildCaches d.local_strategy).1 ∧
      (refreshIfStale d).dpid_to_code = (buildCaches d.local_strategy).2 ∧
      (refreshIfStale d).local_strategy = d.local_strategy ∧
      (refreshIfStale d).status_range = d.status_range ∧
      (refreshIfStale d).local_strategy_cache_version =
        (refreshIfStale d).local_strategy_version ∧
      CacheInv (refreshIfStale d) := by
  unfold refreshIfStale
  by_cases hv : d.local_strategy_cache_version ≠ d.local_strategy_version
  · rw [if_pos hv]
    exact ⟨rfl, rfl, rfl, rfl, rfl, cacheInv_refresh d⟩
  · rw [if_neg hv]
    push_neg at hv
    obtain ⟨hc, hd⟩ := h.2 hv
    exact ⟨hc, hd, rfl, rfl, hv, h⟩

/-- C2 (amended): whenever the device satisfies the cache-coherence invariant
(as all devices reachable through the wrapped mutations do — see C7),
`_read_code_from_dpId` rebuilds the lookup mappings if they are stale, sets
`cacheVersion = strategyVersion`, and answers exactly according to the
current `localStrategy` contents; `_read_dpId_from_code` first answers from
the `status_range` table when it holds the code with a non-zero `dp_id` —
*without* consulting or rebuilding the cache — and only otherwise answers
(after the same lazy rebuild) according to the current `localStrategy`. -/
theorem lazy_lookup_consistency (d : XTDevice) (h : CacheInv d) (code : String)
    (dpId : Int) :
    ((readCodeFromDpId d dpId).1 = codePure d.local_strategy dpId) ∧
      ((readDpIdFromCode d code).1 = dpIdPure d.status_range d.local_strategy code) ∧
      ((readCodeFromDpId d dpId).2.local_strategy_cache_version =
        (readCodeFromDpId d dpId).2.local_strategy_version) ∧
      CacheInv (readCodeFromDpId d dpId).2 ∧
      CacheInv (readDpIdFromCode d code).2 := by
  obtain ⟨hc, hd, hl, hs, hcv, hinv⟩ := refreshIfStale_char d h
  refine ⟨?_, ?_, hcv, hinv, ?_⟩
  · simp only [readCodeFromDpId, codePure]
    rw [hd]
  · simp only [readDpIdFromCode, dpIdPure]
    cases hsr : lookupA d.status_range code with
    | none => rw [hc]
    | some r =>
      by_cases hz : r.dp_id ≠ 0
      · simp [hz]
      · simp only [hz, if_false, ite_false]
        rw [hc]
  · simp only [readDpIdFromCode]
    split
    · split
      · exact h
      · exact hinv
    · exact hinv

/-- C2 (witness): on a device freshly mutated (stale cache), both lookups
answer according to the new strategy contents. -/
theorem lazy_lookup_consistency_witness :
    CacheInv (applyStratOp c8exDevice (.setItem 9 [("status_code", .str "hum")])) ∧
      ((readCodeFromDpId (applyStratOp c8exDevice (.setItem 9 [("status_code", .str "hum")])) 9).1
        = codePure (applyStratOp c8exDevice (.setItem 9 [("status_code", .str "hum")])).local_strategy 9) ∧
      ((readCodeFromDpId (applyStratOp c8exDevice (.setItem 9 [("status_code", .str "hum")])) 9).1
        = some "hum") :=
  ⟨by decide,
    (lazy_lookup_consistency _ (by decide) "hum" 9).1,
    by decide⟩

/-- C2 (counterexample): the claim says every lookup answers from the (lazily
rebuilt) mappings derived from `localStrategy`; but with `status_range`
carrying `dp_id = 5` for code `"temp"` while the strategy (and the in-sync
rebuilt mapping) give 7, `_read_dpId_from_code` answers 5 from the
`status_range` shortcut, not from the mappings. -/
theorem read_dpid_ignores_rebuilt_mapping :
    (readDpIdFromCode c2exDevice "temp").1 = some 5 ∧
      lookupA (buildCaches c2exDevice.local_strategy).1 "temp" = some 7 ∧
      c2exDevice.local_strategy_cache_version = c2exDevice.local_strategy_version ∧
      c2exDevice.code_to_dpid = [("temp", 7)] ∧
      (readDpIdFromCode c2exDevice "temp").1 ≠ lookupA c2exDevice.code_to_dpid "temp" := by
  decide

/-! ## C8 / C10: per-item status resolution -/

theorem readDpIdFromCode_char (d : XTDevice) (h : CacheInv d) (c : String) :
    (readDpIdFromCode d c).1 = dpIdPure d.status_range d.local_strategy c ∧
      (readDpIdFromCode d c).2.local_strategy = d.local_strategy ∧
      (readDpIdFromCode d c).2.status_range = d.status_range ∧
      CacheInv (readDpIdFromCode d c).2 := by
  obtain ⟨hc, hd, hl, hs, hcv, hinv⟩ := refreshIfStale_char d h
  refine ⟨?_, ?_, ?_, ?_⟩
  · simp only [readDpIdFromCode, dpIdPure]
    split
    · split
      · rfl
      · rw [hc]
    · rw [hc]
  · simp only [readDpIdFromCode]
    split
    · split
      · rfl
      · exact hl
    · exact hl
  · simp only [readDpIdFromCode]
    split
    · split
      · rfl
      · exact hs
    · exact hs
  · simp only [readDpIdFromCode]
    split
    · split
      · exact h
      · exact hinv
    · exact hinv

theorem readCodeFromDpId_char (d : XTDevice) (h : CacheInv d) (i : Int) :
    (readCodeFromDpId d i).1 = codePure d.local_strategy i ∧
      (readCodeFromDpId d i).2.local_strategy = d.local_strategy ∧
      (readCodeFromDpId d i).2.status_range = d.status_range ∧
      CacheInv (readCodeFromDpId d i).2 := by
  obtain ⟨hc, hd, hl, hs, hcv, hinv⟩ := refreshIfStale_char d h
  refine ⟨?_, hl, hs, hinv⟩
  simp only [readCodeFromDpId, codePure]
  rw [hd]

theorem readDpIdFromCodeV_char (d : XTDevice) (h : CacheInv d) (v : PyVal) :
    (readDpIdFromCodeV d v).1 = dpIdPureV d.status_range d.local_strategy v ∧
      (readDpIdFromCodeV d v).2.local_strategy = d.local_strategy ∧
      (readDpIdFromCodeV d v).2.status_range = d.status_range ∧
      CacheInv (readDpIdFromCodeV d v).2 := by
  obtain ⟨hc, hd, hl, hs, hcv, hinv⟩ := refreshIfStale_char d h
  cases v with
  | str s => exact readDpIdFromCode_char d h s
  | int n => exact ⟨rfl, hl, hs, hinv⟩
  | strList l => exact ⟨rfl, hl, hs, hinv⟩
  | null => exact ⟨rfl, hl, hs, hinv⟩

theorem readCodeFromDpIdV_char (d : XTDevice) (h : CacheInv d) (v : PyVal) :
    (readCodeFromDpIdV d v).1 = codePureV d.local_strategy v ∧
      (readCodeFromDpIdV d v).2.local_strategy = d.local_strategy ∧
      (readCodeFromDpIdV d v).2.status_range = d.status_range ∧
      CacheInv (readCodeFromDpIdV d v).2 := by
  obtain ⟨hc, hd, hl, hs, hcv, hinv⟩ := refreshIfStale_char d h
  cases v with
  | str s => exact ⟨rfl, hl, hs, hinv⟩
  | int n => exact readCodeFromDpId_char d h n
  | strList l => exact ⟨rfl, hl, hs, hinv⟩
  | null => exact ⟨rfl, hl, hs, hinv⟩

theorem resolveCodeAndDpid_char (d : XTDevice) (h : CacheInv d)
    (code dpId : Option PyVal) :
    (resolveCodeAndDpid d code dpId).1 =
      (match code, dpId with
        | none, some dv => ((codePureV d.local_strategy dv).map PyVal.str, some dv)
        | some cv, none =>
          (some cv, (dpIdPureV d.status_range d.local_strategy cv).map PyVal.int)
        | c, dp => (c, dp)) ∧
      (resolveCodeAndDpid d code dpId).2.local_strategy = d.local_strategy ∧
      (resolveCodeAndDpid d code dpId).2.status_range = d.status_range ∧
      CacheInv (resolveCodeAndDpid d code dpId).2 := by
  cases code with
  | none =>
    cases dpId with
    | none => exact ⟨rfl, rfl, rfl, h⟩
    | some dv =>
      obtain ⟨h1, h2, h3, h4⟩ := readCodeFromDpIdV_char d h dv
      simp only [resolveCodeAndDpid]
      exact ⟨by rw [h1], h2, h3, h4⟩
  | some cv =>
    cases dpId with
    | none =>
      obtain ⟨h1, h2, h3, h4⟩ := readDpIdFromCodeV_char d h cv
      simp only [resolveCodeAndDpid]
      exact ⟨by rw [h1], h2, h3, h4⟩
    | some dv => exact ⟨rfl, rfl, rfl, h⟩

theorem resolveCodeAlias_char (d : XTDevice) (h : CacheInv d) (dv : PyVal)
    (code : Option PyVal) :
    (resolveCodeAlias d dv code).1 =
      (match codePureV d.local_strategy dv with
        | some s => some (PyVal.str s)
        | none => code) ∧
      (resolveCodeAlias d dv code).2.local_strategy = d.local_strategy ∧
      (resolveCodeAlias d dv code).2.status_range = d.status_range ∧
      CacheInv (resolveCodeAlias d dv code).2 := by
  obtain ⟨h1, h2, h3, h4⟩ := readCodeFromDpIdV_char d h dv
  simp only [resolveCodeAlias]
  rw [h1]
  cases codePureV d.local_strategy dv with
  | none => exact ⟨rfl, h2, h3, h4⟩
  | some s => exact ⟨rfl, h2, h3, h4⟩

theorem findCodeDpidFromStateItems_char (state : Item) (d : XTDevice)
    (h : CacheInv d) (orig : Option PyVal) :
    (findCodeDpidFromStateItems d state orig).1 =
      findPure d.local_strategy state orig ∧
      (findCodeDpidFromStateItems d state orig).2.local_strategy = d.local_strategy ∧
      (findCodeDpidFromStateItems d state orig).2.status_range = d.status_range ∧
      CacheInv (findCodeDpidFromStateItems d state orig).2 := by
  induction state generalizing d with
  | nil => exact ⟨rfl, rfl, rfl, h⟩
  | cons kv rest ih =>
    obtain ⟨key, v⟩ := kv
    simp only [findCodeDpidFromStateItems, findPure]
    cases hk : key.toInt? with
    | none => exact ih d h
    | some n =>
      obtain ⟨h1, h2, h3, h4⟩ := readCodeFromDpId_char d h n
      obtain ⟨g1, g2, g3, g4⟩ := ih (readCodeFromDpId d n).2 h4
      cases hcp : codePure d.local_strategy n with
      | some c =>
        have hread : (readCodeFromDpId d n).1 = some c := h1.trans hcp
        simp only [hread, hcp]
        exact ⟨trivial, h2, h3, h4⟩
      | none =>
        have hread : (readCodeFromDpId d n).1 = none := h1.trans hcp
        simp only [hread, hcp]
        exact ⟨g1.trans (by rw [h2]), g2.trans h2, g3.trans h3, g4⟩

theorem readCodeDpidValueFromState_char (d : XTDevice) (h : CacheInv d)
    (state : Item) (f1 f2 : Bool) :
    (readCodeDpidValueFromState (some d) state f1 f2).1 =
      resolveStatePure d.status_range d.local_strategy state f1 f2 ∧
      ∃ d', (readCodeDpidValueFromState (some d) state f1 f2).2 = some d' ∧
        d'.local_strategy = d.local_strategy ∧ d'.status_range = d.status_range ∧
        CacheInv d' := by
  simp only [readCodeDpidValueFromState, resolveStatePure]
  obtain ⟨h1, h2, h3, h4⟩ :=
    resolveCodeAndDpid_char d h (extractInitialState state).1 (extractInitialState state).2.1
  rw [h1]
  set d₁ := (resolveCodeAndDpid d (extractInitialState state).1
    (extractInitialState state).2.1).2 with hd₁
  set p₁ := (match (extractInitialState state).1, (extractInitialState state).2.1 with
    | none, some dv => ((codePureV d.local_strategy dv).map PyVal.str, some dv)
    | some cv, none =>
      (some cv, (dpIdPureV d.status_range d.local_strategy cv).map PyVal.int)
    | c, dp => (c, dp)) with hp₁
  have stage2 :
      (match p₁.2 with
        | some dv => resolveCodeAlias d₁ dv p₁.1
        | none => (p₁.1, d₁)).1 =
        (match p₁.2 with
          | some dv =>
            match codePureV d.local_strategy dv with
            | some s => some (PyVal.str s)
            | none => p₁.1
          | none => p₁.1) ∧
      (match p₁.2 with
        | some dv => resolveCodeAlias d₁ dv p₁.1
        | none => (p₁.1, d₁)).2.local_strategy = d.local_strategy ∧
      (match p₁.2 with
        | some dv => resolveCodeAlias d₁ dv p₁.1
        | none => (p₁.1, d₁)).2.status_range = d.status_range ∧
      CacheInv (match p₁.2 with
        | some dv => resolveCodeAlias d₁ dv p₁.1
        | none => (p₁.1, d₁)).2 := by
    cases hp : p₁.2 with
    | none => exact ⟨rfl, h2, h3, h4⟩
    | some dv =>
      obtain ⟨g1, g2, g3, g4⟩ := resolveCodeAlias_char d₁ h4 dv p₁.1
      exact ⟨g1.trans (by rw [h2]), g2.trans h2, g3.trans h3, g4⟩
  obtain ⟨s1, s2, s3, s4⟩ := stage2
  rw [s1]
  set r₂ := (match p₁.2 with
    | some dv => resolveCodeAlias d₁ dv p₁.1
    | none => (p₁.1, d₁)) with hr₂
  set code₂ := (match p₁.2 with
    | some dv =>
      match codePureV d.local_strategy dv with
      | some s => some (PyVal.str s)
      | none => p₁.1
    | none => p₁.1) with hcode₂
  by_cases hbr : code₂ = none ∧ p₁.2 = none
  · rw [if_pos hbr, if_pos hbr]
    obtain ⟨g1, g2, g3, g4⟩ :=
      findCodeDpidFromStateItems_char state r₂.2 s4 (extractInitialState state).2.2
    have g1' : (findCodeDpidFromStateItems r₂.2 state (extractInitialState state).2.2).1 =
        findPure d.local_strategy state (extractInitialState state).2.2 :=
      g1.trans (by rw [s2])
    have hls : (findCodeDpidFromStateItems r₂.2 state
        (extractInitialState state).2.2).2.local_strategy = d.local_strategy :=
      g2.trans s2
    have hsr : (findCodeDpidFromStateItems r₂.2 state
        (extractInitialState state).2.2).2.status_range = d.status_range :=
      g3.trans s3
    rw [g1']
    constructor
    · split
      · rfl
      · split
        · rfl
        · rfl
    · split
      · exact ⟨_, rfl, hls, hsr, g4⟩
      · split
        · exact ⟨_, rfl, hls, hsr, g4⟩
        · exact ⟨_, rfl, hls, hsr, g4⟩
  · rw [if_neg hbr, if_neg hbr]
    constructor
    · split
      · rfl
      · split
        · rfl
        · rfl
    · split
      · exact ⟨_, rfl, s2, s3, s4⟩
      · split
        · exact ⟨_, rfl, s2, s3, s4⟩
        · exact ⟨_, rfl, s2, s3, s4⟩

theorem convert_fold_char (items : List Item) (d : XTDevice) (h : CacheInv d)
    (pre : List Item) :
    (items.foldl convertStep (pre, some d)).1 =
      pre ++ items.map (resolveItemPure d.status_range d.local_strategy) ∧
      ∃ d', (items.foldl convertStep (pre, some d)).2 = some d' ∧
        d'.local_strategy = d.local_strategy ∧ d'.status_range = d.status_range ∧
        CacheInv d' := by
  induction items generalizing d pre with
  | nil => exact ⟨by simp, d, rfl, rfl, rfl, h⟩
  | cons it rest ih =>
    obtain ⟨h1, d', hd', hls, hsr, hinv⟩ :=
      readCodeDpidValueFromState_char d h it true true
    have hstep : convertStep (pre, some d) it =
        (pre ++ [resolveItemPure d.status_range d.local_strategy it], some d') := by
      simp only [convertStep, resolveItemPure, h1, hd']
      split <;> rfl
    rw [List.foldl_cons, hstep]
    obtain ⟨g1, d'', hd'', gls, gsr, ginv⟩ :=
      ih d' hinv (pre ++ [resolveItemPure d.status_range d.local_strategy it])
    constructor
    · rw [g1, hls, hsr]
      simp
    · exact ⟨d'', hd'', gls.trans hls, gsr.trans hsr, ginv⟩

theorem convert_fold_none (items : List Item) (pre : List Item) :
    (items.foldl convertStep (pre, none)).1 = pre ++ items ∧
      (items.foldl convertStep (pre, none)).2 = none := by
  induction items generalizing pre with
  | nil => exact ⟨by simp, rfl⟩
  | cons it rest ih =>
    have hstep : convertStep (pre, none) it = (pre ++ [it], none) := by
      simp [convertStep, readCodeDpidValueFromState]
    rw [List.foldl_cons, hstep]
    obtain ⟨g1, g2⟩ := ih (pre ++ [it])
    exact ⟨by rw [g1]; simp, g2⟩

/-- C8 (amended): `convert_device_report_status_list` resolves each raw
status item independently — the result is a per-item map over the input in
which an item whose required `code`/`dpId` (both required on this call path)
cannot be resolved after all resolution attempts is *rejected by being left
in the batch unchanged* (the `else: pass` branch), not dropped; the batch
keeps its length and the other items still resolve. -/
theorem convert_keeps_failed_items (d : XTDevice) (h : CacheInv d)
    (items : List Item) :
    ((convertDeviceReportStatusList (some d) items).1.length = items.length) ∧
      ((convertDeviceReportStatusList (some d) items).1 =
        items.map (resolveItemPure d.status_range d.local_strategy)) ∧
      (∀ it, (resolveStatePure d.status_range d.local_strategy it true true).2.2.2 = false →
        resolveItemPure d.status_range d.local_strategy it = it) := by
  obtain ⟨h1, -⟩ := convert_fold_char items d h []
  refine ⟨?_, ?_, ?_⟩
  · rw [convertDeviceReportStatusList, h1]
    simp
  · rw [convertDeviceReportStatusList, h1]
    simp
  · intro it hfail
    simp [resolveItemPure, hfail]

/-- C8 (witness): a resolvable item is converted per-item. -/
theorem convert_keeps_failed_items_witness :
    CacheInv c8exDevice ∧
      ((convertDeviceReportStatusList (some c8exDevice) [[("code", .str "temp")]]).1 =
        [[("code", .str "temp")]].map
          (resolveItemPure c8exDevice.status_range c8exDevice.local_strategy)) :=
  ⟨by decide,
    (convert_keeps_failed_items c8exDevice (by decide) [[("code", .str "temp")]]).2.1⟩

/-- C8 (counterexample): a batch with one unresolvable item (required code
present but no dpId resolvable) and one resolvable item comes back with *two*
items, the failed one unchanged in place — it is not dropped from the
resolved batch as the claim states. -/
theorem convert_does_not_drop_failed_items :
    ((convertDeviceReportStatusList (some c8exDevice)
        [[("code", .str "nope")], [("code", .str "temp")]]).1.length = 2) ∧
      ((convertDeviceReportStatusList (some c8exDevice)
        [[("code", .str "nope")], [("code", .str "temp")]]).1.headD []
          = [("code", .str "nope")]) ∧
      ((readCodeDpidValueFromState (some c8exDevice)
        [("code", .str "nope")]).1.2.2.2 = false) := by
  decide

/-- C10 (confirmed): `convert_device_report_status_list` works on a deep copy
(modelled by value semantics: the input list and its items are never
changed), returns a list of exactly the input's length, and returns items
whose resolution fails unchanged rather than altered. -/
theorem convert_frame (devO : Option XTDevice)
    (h : ∀ d, devO = some d → CacheInv d) (items : List Item) :
    ((convertDeviceReportStatusList devO items).1.length = items.length) ∧
      (devO = none → (convertDeviceReportStatusList devO items).1 = items) ∧
      (∀ d, devO = some d →
        ((convertDeviceReportStatusList devO items).1 =
          items.map (resolveItemPure d.status_range d.local_strategy)) ∧
        ∀ it ∈ items,
          (resolveStatePure d.status_range d.local_strategy it true true).2.2.2 = false →
            resolveItemPure d.status_range d.local_strategy it = it) := by
  cases devO with
  | none =>
    obtain ⟨h1, -⟩ := convert_fold_none items []
    refine ⟨?_, fun _ => ?_, fun d hd => by cases hd⟩
    · rw [convertDeviceReportStatusList, h1]
      simp
    · rw [convertDeviceReportStatusList, h1]
      simp
  | some d =>
    obtain ⟨h1, -⟩ := convert_fold_char items d (h d rfl) []
    refine ⟨?_, ?_, ?_⟩
    · rw [convertDeviceReportStatusList, h1]
      simp
    · intro hn
      exact absurd hn (by simp)
    · intro d₀ hd
      injection hd with hd'
      subst hd'
      refine ⟨?_, ?_⟩
      · rw [convertDeviceReportStatusList, h1]
        simp
      · intro it _ hfail
        simp [resolveItemPure, hfail]

/-- C10 (witness): a failing item is returned unchanged and the length is
preserved, for a present device and for a missing one. -/
theorem convert_frame_witness :
    ((convertDeviceReportStatusList (some c8exDevice) [[("code", .str "nope")]]).1.length = 1) ∧
      ((convertDeviceReportStatusList none [[("code", .str "nope")]]).1
        = [[("code", .str "nope")]]) :=
  ⟨(convert_frame (some c8exDevice) (fun d hd => by cases hd; decide)
      [[("code", .str "nope")]]).1,
    (convert_frame none (fun d hd => by cases hd) [[("code", .str "nope")]]).2.1 rfl⟩

/-! ## C9: bounded concurrency -/

theorem startLoop_conserves (cap : Option Nat) (q a : List XTJob) :
    (startLoop cap q a).1.length + (startLoop cap q a).2.length = q.length + a.length := by
  induction q generalizing a with
  | nil => simp [startLoop]
  | cons j rest ih =>
    simp only [startLoop]
    split
    · simp
    · have h2 := ih (a ++ [j])
      simp only [List.length_append, List.length_cons, List.length_nil] at h2 ⊢
      omega

theorem startLoop_bound (k : Nat) (q a : List XTJob) (h : a.length ≤ k) :
    (startLoop (some k) q a).2.length ≤ k := by
  induction q generalizing a with
  | nil => simpa [startLoop] using h
  | cons j rest ih =>
    simp only [startLoop]
    split
    · simpa using h
    · next hcap =>
      refine ih (a ++ [j]) ?_
      simp only [capReached, ge_iff_le, decide_eq_true_eq] at hcap
      simp only [List.length_append, List.length_cons, List.length_nil]
      omega

theorem startLoop_saturates (k : Nat) (q a : List XTJob) (h : a.length ≤ k)
    (hq : (startLoop (some k) q a).1 ≠ []) :
    (startLoop (some k) q a).2.length = k := by
  induction q generalizing a with
  | nil => simp [startLoop] at hq
  | cons j rest ih =>
    simp only [startLoop] at hq ⊢
    split
    · next hcap =>
      simp only [capReached, ge_iff_le, decide_eq_true_eq] at hcap
      show a.length = k
      omega
    · next hcap =>
      simp only [capReached, ge_iff_le, decide_eq_true_eq] at hcap
      rw [if_neg (by simpa [capReached] using hcap)] at hq
      refine ih (a ++ [j]) ?_ hq
      simp only [List.length_append, List.length_cons, List.length_nil]
      omega

theorem startLoop_queue_le (cap : Option Nat) (q a : List XTJob) :
    (startLoop cap q a).1.length ≤ q.length := by
  induction q generalizing a with
  | nil => simp [startLoop]
  | cons j rest ih =>
    simp only [startLoop]
    split
    · simp
    · exact le_trans (ih (a ++ [j])) (Nat.le_succ _)

theorem startLoop_progress (k : Nat) (q a : List XTJob) (h : a.length < k)
    (hq : q ≠ []) : (startLoop (some k) q a).1.length < q.length := by
  cases q with
  | nil => exact absurd rfl hq
  | cons j rest =>
    simp only [startLoop]
    rw [if_neg (by simp [capReached]; omega)]
    exact Nat.lt_succ_of_le (startLoop_queue_le _ rest (a ++ [j]))

theorem selectMask_reject_length {α : Type} (l : List α) (m : List Bool)
    (h : m.length = l.length) :
    (selectMask l m).length + (rejectMask l m).length = l.length := by
  induction l generalizing m with
  | nil => simp [selectMask, rejectMask]
  | cons x xs ih =>
    cases m with
    | nil => simp at h
    | cons b bs =>
      have h' : bs.length = xs.length := by simpa using h
      have := ih bs h'
      cases b <;> simp [selectMask, rejectMask] <;> omega

theorem rejectMask_length_le {α : Type} (l : List α) (m : List Bool) :
    (rejectMask l m).length ≤ l.length := by
  induction l generalizing m with
  | nil => simp [rejectMask]
  | cons x xs ih =>
    cases m with
    | nil => simp [rejectMask]
    | cons b bs =>
      have := ih bs
      cases b <;> simp [rejectMask] <;> omega

theorem rejectMask_of_select_empty {α : Type} (l : List α) (m : List Bool)
    (h : selectMask l m = []) : rejectMask l m = l := by
  induction l generalizing m with
  | nil => cases m <;> simp [rejectMask]
  | cons x xs ih =>
    cases m with
    | nil => simp [rejectMask]
    | cons b bs =>
      cases b
      · simp only [selectMask, Bool.false_eq_true, if_false] at h
        simp only [rejectMask, Bool.false_eq_true, if_false, List.cons.injEq]
        exact ⟨trivial, ih bs h⟩
      · simp [selectMask] at h


theorem selectMask_ne_nil_of_any {α : Type} (l : List α) (m : List Bool)
    (hl : m.length = l.length) (hm : m.any (fun b => b) = true) (hne : l ≠ []) :
    selectMask l m ≠ [] := by
  induction l generalizing m with
  | nil => exact absurd rfl hne
  | cons x xs ih =>
    cases m with
    | nil => simp at hl
    | cons b bs =>
      simp only [List.length_cons, Nat.succ.injEq] at hl
      cases b
      · simp only [List.any_cons, Bool.false_or] at hm
        have hxs : xs ≠ [] := by
          intro hx
          subst hx
          rw [List.length_nil] at hl
          rw [List.length_eq_zero.1 hl] at hm
          simp at hm
        simp only [selectMask, Bool.false_eq_true, if_false]
        exact ih bs hl hm hxs
      · simp [selectMask]

theorem startAllThreads_inv (k : Nat) (s : XTThreadingManagerC)
    (h : s.thread_active_list.length ≤ k) :
    InvC k (startAllThreads (some k) s) ∧
      totalPending (startAllThreads (some k) s) = totalPending s ∧
      (startAllThreads (some k) s).thread_finished_list = s.thread_finished_list := by
  refine ⟨⟨rfl, startLoop_bound k _ _ h, fun hq => startLoop_saturates k _ _ h hq⟩, ?_, rfl⟩
  have := startLoop_conserves (some k) s.thread_queue s.thread_active_list
  simp only [totalPending, startAllThreads]
  omega

theorem cleanStep_inv (k : Nat) (s : XTThreadingManagerC) (mask : List Bool)
    (h : InvC k s) : InvC k (cleanStep s mask) := by
  obtain ⟨hmax, hbound, hsat⟩ := h
  simp only [cleanStep]
  split
  · next hsel =>
    rw [List.isEmpty_iff] at hsel
    rw [rejectMask_of_select_empty _ _ hsel]
    exact ⟨hmax, hbound, hsat⟩
  · rw [hmax]
    refine (startAllThreads_inv k _ ?_).1
    exact le_trans (rejectMask_length_le _ _) hbound

theorem cleanStep_count (k : Nat) (s : XTThreadingManagerC) (mask : List Bool)
    (h : InvC k s) (hlen : mask.length = s.thread_active_list.length) :
    totalPending (cleanStep s mask) + (selectMask s.thread_active_list mask).length =
        totalPending s ∧
      (cleanStep s mask).thread_finished_list.length =
        s.thread_finished_list.length + (selectMask s.thread_active_list mask).length := by
  obtain ⟨hmax, hbound, hsat⟩ := h
  have hcnt := selectMask_reject_length s.thread_active_list mask hlen
  simp only [cleanStep]
  split
  · next hsel =>
    rw [List.isEmpty_iff] at hsel
    rw [rejectMask_of_select_empty _ _ hsel, hsel]
    simp [totalPending]
  · have hcap : startAllThreads s.max_concurrency
        { s with
          thread_active_list := rejectMask s.thread_active_list mask
          thread_finished_list := s.thread_finished_list ++
            (selectMask s.thread_active_list mask).map callThread } =
        startAllThreads (some k)
        { s with
          thread_active_list := rejectMask s.thread_active_list mask
          thread_finished_list := s.thread_finished_list ++
            (selectMask s.thread_active_list mask).map callThread } := by
      rw [hmax]
    rw [hcap]
    obtain ⟨-, hc, hf⟩ := startAllThreads_inv k
      { s with
        thread_active_list := rejectMask s.thread_active_list mask
        thread_finished_list :=
          s.thread_finished_list ++ (selectMask s.thread_active_list mask).map callThread }
      (le_trans (rejectMask_length_le _ _) hbound)
    rw [hc, hf]
    have hrec : totalPending
        { s with
          thread_active_list := rejectMask s.thread_active_list mask
          thread_finished_list := s.thread_finished_list ++
            (selectMask s.thread_active_list mask).map callThread } =
        s.thread_queue.length + (rejectMask s.thread_active_list mask).length := rfl
    have hrec2 : ({ s with
          thread_active_list := rejectMask s.thread_active_list mask
          thread_finished_list := s.thread_finished_list ++
            (selectMask s.thread_active_list mask).map callThread } :
        XTThreadingManagerC).thread_finished_list =
        s.thread_finished_list ++ (selectMask s.thread_active_list mask).map callThread := rfl
    rw [hrec, hrec2]
    simp only [totalPending, List.length_append, List.length_map]
    exact ⟨by omega, trivial⟩

theorem cleanStep_unblocks (k : Nat) (s : XTThreadingManagerC) (mask : List Bool)
    (h : InvC k s) (hq : s.thread_queue ≠ [])
    (hlen : mask.length = s.thread_active_list.length)
    (hany : mask.any (fun b => b) = true) :
    (cleanStep s mask).thread_queue.length < s.thread_queue.length := by
  obtain ⟨hmax, hbound, hsat⟩ := h
  have hk : s.thread_active_list.length = k := hsat hq
  have hane : s.thread_active_list ≠ [] := by
    intro h0
    have hk1 := hsat hq
    rw [h0] at hk1
    simp only [List.length_nil] at hk1
    have : mask = [] := by
      rw [h0] at hlen
      simpa using List.length_eq_zero.1 hlen
    rw [this] at hany
    simp at hany
  have hsel : selectMask s.thread_active_list mask ≠ [] :=
    selectMask_ne_nil_of_any _ _ hlen hany hane
  have hcnt := selectMask_reject_length s.thread_active_list mask hlen
  simp only [cleanStep]
  rw [if_neg (by simpa [List.isEmpty_iff] using hsel)]
  rw [hmax]
  simp only [startAllThreads]
  refine startLoop_progress k _ _ ?_ hq
  have hpos : 1 ≤ (selectMask s.thread_active_list mask).length :=
    Nat.one_le_iff_ne_zero.2 (by simpa [List.length_eq_zero] using hsel)
  omega

theorem runSchedule_completes (masks : List (List Bool)) (k : Nat) (hk : 1 ≤ k)
    (s : XTThreadingManagerC) (hinv : InvC k s)
    (hfair : fairSchedule s masks = true) (hcap : totalPending s ≤ masks.length) :
    totalPending (runSchedule s masks) = 0 ∧
      (runSchedule s masks).thread_finished_list.length =
        s.thread_finished_list.length + totalPending s ∧
      InvC k (runSchedule s masks) := by
  induction masks generalizing s with
  | nil =>
    simp only [runSchedule, List.foldl_nil]
    simp only [List.length_nil, Nat.le_zero] at hcap
    exact ⟨hcap, by omega, hinv⟩
  | cons mask rest ih =>
    simp only [fairSchedule, Bool.and_eq_true, Bool.or_eq_true, decide_eq_true_eq] at hfair
    obtain ⟨⟨hlen, hor⟩, hrest⟩ := hfair
    have hstep := cleanStep_count k s mask hinv hlen
    have hinv' := cleanStep_inv k s mask hinv
    have hsel_ge : s.thread_active_list ≠ [] →
        1 ≤ (selectMask s.thread_active_list mask).length := by
      intro hane
      have : mask.any (fun b => b) = true := by
        rcases hor with hemp | hany
        · exact absurd (List.isEmpty_iff.1 hemp) hane
        · exact hany
      exact Nat.one_le_iff_ne_zero.2
        (by simpa [List.length_eq_zero] using selectMask_ne_nil_of_any _ _ hlen this hane)
    have htot' : totalPending (cleanStep s mask) ≤ rest.length := by
      by_cases hane : s.thread_active_list = []
      · have hq0 : s.thread_queue = [] := by
          by_contra hq
          have := hinv.2.2 hq
          rw [hane] at this
          simp only [List.length_nil] at this
          omega
        have : totalPending s = 0 := by simp [totalPending, hq0, hane]
        omega
      · have := hsel_ge hane
        simp only [List.length_cons] at hcap
        omega
    obtain ⟨f1, f2, f3⟩ := ih (cleanStep s mask) hinv' hrest htot'
    refine ⟨f1, ?_, f3⟩
    simp only [runSchedule, List.foldl_cons] at f2 ⊢
    rw [f2, hstep.2]
    omega

theorem runSchedule_inv (masks : List (List Bool)) (k : Nat)
    (s : XTThreadingManagerC) (h : InvC k s) : InvC k (runSchedule s masks) := by
  induction masks generalizing s with
  | nil => exact h
  | cons m ms ih => exact ih _ (cleanStep_inv k s m h)

/-- C9 (amended): for jobs run with `max_concurrency = k` where `1 ≤ k < N`,
at no observation point are more than `k` jobs in flight; under any fair
schedule (each polling pass observes the current active list, and while jobs
are active at least one eventually finishes) that is long enough, every
submitted job completes before `start_and_wait` returns; and whenever jobs
are queued, an observation that sees at least one finished job strictly
shrinks the queue (a finishing job unblocks a queued one).  The lower bound
`1 ≤ k` is required — see the counterexample for `k = 0`. -/
theorem bounded_concurrency_run (k : Nat) (hk : 1 ≤ k) (jobs : List XTJob)
    (masks : List (List Bool))
    (hfair : fairSchedule (startAllThreads (some k) ⟨jobs, [], [], none⟩) masks = true)
    (hcap : jobs.length ≤ masks.length) :
    (∀ pre, pre.IsPrefix masks →
      (runSchedule (startAllThreads (some k) ⟨jobs, [], [], none⟩)
        pre).thread_active_list.length ≤ k) ∧
      ((startAndWaitC (some k) ⟨jobs, [], [], none⟩ masks).2.thread_queue = [] ∧
        (startAndWaitC (some k) ⟨jobs, [], [], none⟩ masks).2.thread_active_list = [] ∧
        (startAndWaitC (some k) ⟨jobs, [], [], none⟩
          masks).2.thread_finished_list.length = jobs.length) ∧
      (∀ s mask, InvC k s → s.thread_queue ≠ [] →
        mask.length = s.thread_active_list.length → mask.any (fun b => b) = true →
        (cleanStep s mask).thread_queue.length < s.thread_queue.length) := by
  have hstart := startAllThreads_inv k (⟨jobs, [], [], none⟩ : XTThreadingManagerC)
    (by simp)
  have htot : totalPending (startAllThreads (some k) ⟨jobs, [], [], none⟩) =
      jobs.length := by
    rw [hstart.2.1]
    simp [totalPending]
  refine ⟨?_, ?_, fun s mask h hq hlen hany => cleanStep_unblocks k s mask h hq hlen hany⟩
  · intro pre _
    exact (runSchedule_inv pre k _ hstart.1).2.1
  · have hrun := runSchedule_completes masks k hk _ hstart.1 hfair (by omega)
    have hq0 : (runSchedule (startAllThreads (some k) ⟨jobs, [], [], none⟩)
        masks).thread_queue = [] := by
      have := hrun.1
      simp only [totalPending] at this
      exact List.length_eq_zero.1 (by omega)
    have ha0 : (runSchedule (startAllThreads (some k) ⟨jobs, [], [], none⟩)
        masks).thread_active_list = [] := by
      have := hrun.1
      simp only [totalPending] at this
      exact List.length_eq_zero.1 (by omega)
    refine ⟨hq0, ha0, ?_⟩
    have := hrun.2.1
    rw [hstart.2.2] at this
    simpa [startAndWaitC, htot] using this

/-- C9 (witness): two jobs under cap 1 with a fair two-step schedule all
complete before `start_and_wait` returns. -/
theorem bounded_concurrency_run_witness :
    (1 ≤ 1) ∧
      (fairSchedule (startAllThreads (some 1)
        ⟨[⟨none⟩, ⟨none⟩], [], [], none⟩) [[true], [true]] = true) ∧
      ((startAndWaitC (some 1) ⟨[⟨none⟩, ⟨none⟩], [], [], none⟩
        [[true], [true]]).2.thread_queue = []) ∧
      ((startAndWaitC (some 1) ⟨[⟨none⟩, ⟨none⟩], [], [], none⟩
        [[true], [true]]).2.thread_finished_list.length =
          ([(⟨none⟩ : XTJob), ⟨none⟩]).length) :=
  ⟨le_refl 1, by decide,
    (bounded_concurrency_run 1 (le_refl 1) [⟨none⟩, ⟨none⟩] [[true], [true]]
      (by decide) (by decide)).2.1.1,
    (bounded_concurrency_run 1 (le_refl 1) [⟨none⟩, ⟨none⟩] [[true], [true]]
      (by decide) (by decide)).2.1.2.2⟩

/-- C9 (counterexample): with `max_concurrency = 0 < N = 1` the claim fails:
`start_all_threads` starts nothing (the cap check `len(active) >= 0` is
immediately true), so `wait_for_all_threads` finds the active list empty and
returns at once — the empty schedule is the complete, fair observation
sequence of that run — and `start_and_wait` returns with the submitted job
still queued and never executed. -/
theorem max_concurrency_zero_starves :
    ((startAndWaitC (some 0) ⟨[⟨none⟩], [], [], none⟩ []).2.thread_queue = [⟨none⟩]) ∧
      ((startAndWaitC (some 0) ⟨[⟨none⟩], [], [], none⟩ []).2.thread_active_list = []) ∧
      ((startAndWaitC (some 0) ⟨[⟨none⟩], [], [], none⟩ []).2.thread_finished_list = []) ∧
      (fairSchedule (startAllThreads (some 0) ⟨[⟨none⟩], [], [], none⟩) [] = true) ∧
      ((startAndWaitC (some 0) ⟨[⟨none⟩], [], [], none⟩ []).1 = none) := by
  decide

/-! ## C1 / C6: cross-map propagation

Association-list and store lemmas first, then the frame of a broadcast, its
adequacy (with enough recursion budget it aligns every registered view), and
the realignment-pass theorems. -/

theorem lookupA_updateA_self {α β : Type} [DecidableEq α] (l : List (α × β))
    (k : α) (v : β) : lookupA (updateA l k v) k = some v := by
  induction l with
  | nil => simp [updateA, lookupA]
  | cons pr rest ih =>
    obtain ⟨a, b⟩ := pr
    by_cases h : a = k
    · simp [updateA, h, lookupA]
    · simp [updateA, h, lookupA, ih]

theorem lookupA_updateA_ne {α β : Type} [DecidableEq α] (l : List (α × β))
    (k k' : α) (v : β) (h : k' ≠ k) :
    lookupA (updateA l k v) k' = lookupA l k' := by
  induction l with
  | nil => simp [updateA, lookupA, Ne.symm h]
  | cons pr rest ih =>
    obtain ⟨a, b⟩ := pr
    by_cases ha : a = k
    · subst ha
      simp [updateA, lookupA, Ne.symm h]
    · simp only [updateA, if_neg ha, lookupA]
      by_cases ha' : a = k'
      · simp [ha']
      · simp [ha', ih]

theorem updateA_self_of_lookup {α β : Type} [DecidableEq α] (l : List (α × β))
    (k : α) (v : β) (h : lookupA l k = some v) : updateA l k v = l := by
  induction l with
  | nil => simp [lookupA] at h
  | cons pr rest ih =>
    obtain ⟨a, b⟩ := pr
    by_cases ha : a = k
    · subst ha
      have hb : b = v := by simpa [lookupA] using h
      subst hb
      simp [updateA]
    · simp only [lookupA, if_neg ha] at h
      simp [updateA, ha, ih h]

theorem updDev_idem {V : Type} [DecidableEq V] (k : String) (v : V) (d : DeviceRec V) :
    updDev k v (updDev k v d) = updDev k v d := by
  simp only [updDev]
  rw [updateA_self_of_lookup _ _ _ (lookupA_updateA_self d.attrs k v)]

theorem updateA_map_fst_of_lookup {α β : Type} [DecidableEq α] (l : List (α × β))
    (k : α) (v : β) (h : (lookupA l k).isSome) :
    (updateA l k v).map Prod.fst = l.map Prod.fst := by
  induction l with
  | nil => simp [lookupA] at h
  | cons pr rest ih =>
    obtain ⟨a, b⟩ := pr
    by_cases ha : a = k
    · subst ha
      simp [updateA]
    · simp only [lookupA, if_neg ha] at h
      simp [updateA, ha, ih h]

theorem nodup_lookupA_of_mem {α β : Type} [DecidableEq α] (l : List (α × β))
    (hnd : (l.map Prod.fst).Nodup) (k : α) (v : β) (hm : (k, v) ∈ l) :
    lookupA l k = some v := by
  induction l with
  | nil => simp at hm
  | cons pr rest ih =>
    obtain ⟨a, b⟩ := pr
    simp only [List.map_cons, List.nodup_cons] at hnd
    rcases List.mem_cons.1 hm with heq | hmem
    · rw [← heq]
      simp [lookupA]
    · have hak : a ≠ k := by
        intro hak
        subst hak
        exact hnd.1 (List.mem_map.2 ⟨(a, v), hmem, rfl⟩)
      simp [lookupA, hak, ih hnd.2 hmem]

theorem set_getD_self {α : Type} (l : List α) (i : Nat) (d : α) :
    l.set i (l.getD i d) = l := by
  induction l generalizing i with
  | nil => simp
  | cons x xs ih =>
    cases i with
    | zero => simp [List.getD]
    | succ n =>
      have hstep : (x :: xs).set (n + 1) ((x :: xs).getD (n + 1) d) =
          x :: xs.set n (xs.getD n d) := rfl
      rw [hstep, ih n]

theorem getDev_bcasts (st : PropState V) (n : Nat) (r : Nat) :
    getDev { st with bcasts := n } r = getDev st r := rfl

theorem getDev_plainSetattr_ne {V : Type} [DecidableEq V] (st : PropState V)
    (r r' : Nat) (k : String) (v : V) (h : r' ≠ r) :
    getDev (plainSetattr st r k v) r' = getDev st r' := by
  simp [getDev, plainSetattr, List.getD, List.getElem?_set_ne (Ne.symm h)]

theorem getDev_plainSetattr_self {V : Type} [DecidableEq V] (st : PropState V)
    (r : Nat) (k : String) (v : V) (h : r < st.store.length) :
    getDev (plainSetattr st r k v) r = updDev k v (getDev st r) := by
  simp [getDev, plainSetattr, updDev, List.getD, List.getElem?_set_self h]

theorem plainSetattr_oob {V : Type} [DecidableEq V] (st : PropState V)
    (r : Nat) (k : String) (v : V) (h : st.store.length ≤ r) :
    plainSetattr st r k v = st := by
  simp only [plainSetattr, List.set_eq_of_length_le h]

theorem findRef_congr {V : Type} [DecidableEq V] (st st' : PropState V)
    (hm : st'.maps = st.maps) (hid : ∀ r, (getDev st' r).id = (getDev st r).id)
    (i : Nat) (devId : String) : findRef st' i devId = findRef st i devId := by
  unfold findRef
  rw [hm]
  induction (st.maps.getD i []) with
  | nil => rfl
  | cons r rest ih => simp [List.find?, hid r, ih]

theorem findRef_some_id {V : Type} [DecidableEq V] (st : PropState V) (i : Nat)
    (devId : String) (r : Nat) (h : findRef st i devId = some r) :
    (getDev st r).id = devId := by
  have := List.find?_some h
  simpa using this

theorem findRef_some_lt {V : Type} [DecidableEq V] (st : PropState V) (i : Nat)
    (devId : String) (r : Nat) (hwf : WFRefs st) (h : findRef st i devId = some r) :
    r < st.store.length := by
  have hmem : r ∈ st.maps.getD i [] := List.mem_of_find?_eq_some h
  by_cases hi : i < st.maps.length
  · have : st.maps.getD i [] ∈ st.maps := by
      rw [List.getD_eq_getElem?_getD, List.getElem?_eq_getElem hi]
      exact List.getElem_mem _
    exact hwf _ this r hmem
  · rw [List.getD_eq_getElem?_getD, List.getElem?_eq_none (by omega)] at hmem
    simp at hmem

theorem FrameRel.rfl' {V : Type} [DecidableEq V] (devId k : String) (v : V)
    (st : PropState V) : FrameRel devId k v st st :=
  ⟨rfl, rfl, fun _ => Or.inl rfl⟩

theorem FrameRel.trans' {V : Type} [DecidableEq V] {devId k : String} {v : V}
    {st st₁ st₂ : PropState V} (h1 : FrameRel devId k v st st₁)
    (h2 : FrameRel devId k v st₁ st₂) : FrameRel devId k v st st₂ := by
  obtain ⟨m1, l1, f1⟩ := h1
  obtain ⟨m2, l2, f2⟩ := h2
  refine ⟨m2.trans m1, l2.trans l1, fun r => ?_⟩
  rcases f2 r with h2r | ⟨hid2, hw2, hupd2⟩
  · rcases f1 r with h1r | ⟨hid1, hw1, hupd1⟩
    · exact Or.inl (h2r.trans h1r)
    · exact Or.inr ⟨hid1, hw1, h2r.trans hupd1⟩
  · rcases f1 r with h1r | ⟨hid1, hw1, hupd1⟩
    · rw [h1r] at hid2 hw2
      exact Or.inr ⟨hid2, hw2, hupd2.trans (by rw [h1r])⟩
    · rw [hupd1] at hupd2
      exact Or.inr ⟨hid1, hw1, hupd2.trans (updDev_idem k v _)⟩

theorem plainSetattr_frame {V : Type} [DecidableEq V] (st : PropState V)
    (r : Nat) (devId k : String) (v : V) (hid : (getDev st r).id = devId)
    (hw : ∃ w, getAttr (getDev st r) k = some w) :
    FrameRel devId k v st (plainSetattr st r k v) := by
  refine ⟨rfl, by simp [plainSetattr], fun r' => ?_⟩
  by_cases h1 : r' = r
  · subst h1
    by_cases h2 : r' < st.store.length
    · exact Or.inr ⟨hid, hw, getDev_plainSetattr_self st r' k v h2⟩
    · rw [plainSetattr_oob st r' k v (by omega)]
      exact Or.inl rfl
  · exact Or.inl (getDev_plainSetattr_ne st r r' k v h1)

theorem skvStep_frame {V : Type} [DecidableEq V]
    (nested : PropState V → String → String → V → PropState V) (devId k : String)
    (v : V) (hnested : ∀ st' id', FrameRel id' k v st' (nested st' id' k v))
    (st : PropState V) (i : Nat) :
    FrameRel devId k v st (skvStep nested devId k v st i) := by
  unfold skvStep
  split
  · exact FrameRel.rfl' devId k v st
  · split
    · exact FrameRel.rfl' devId k v st
    next r hfr =>
      dsimp only
      split
      · exact FrameRel.rfl' devId k v st
      next w hw =>
        split
        · exact FrameRel.rfl' devId k v st
        next hv =>
          have hid : (getDev st r).id = devId := findRef_some_id st i devId r hfr
          rw [← hid]
          have hrel1 : FrameRel (getDev st r).id k v st (plainSetattr st r k v) :=
            plainSetattr_frame st r (getDev st r).id k v rfl ⟨w, hw⟩
          have hrel2 : FrameRel (getDev st r).id k v (plainSetattr st r k v)
              { plainSetattr st r k v with
                bcasts := (plainSetattr st r k v).bcasts + 1 } :=
            ⟨rfl, rfl, fun _ => Or.inl rfl⟩
          exact (hrel1.trans' hrel2).trans' (hnested _ _)

theorem skvBroadcast_frame {V : Type} [DecidableEq V] (k : String) (v : V) :
    ∀ (fuel : Nat) (st : PropState V) (devId : String),
      FrameRel devId k v st (skvBroadcast fuel st devId k v) := by
  intro fuel
  induction fuel with
  | zero => exact fun st devId => FrameRel.rfl' devId k v st
  | succ fuel ih =>
    intro st devId
    show FrameRel devId k v st (skvLoop (skvBroadcast fuel) st devId k v)
    unfold skvLoop
    generalize List.range st.maps.length = is
    induction is generalizing st with
    | nil => exact FrameRel.rfl' devId k v st
    | cons i rest ihl =>
      rw [List.foldl_cons]
      exact (skvStep_frame (skvBroadcast fuel) devId k v
        (fun st' id' => ih st' id') st i).trans' (ihl _)

theorem getAttr_updDev_self {V : Type} [DecidableEq V] (k : String) (v : V)
    (d : DeviceRec V) : getAttr (updDev k v d) k = some v := by
  simp [getAttr, updDev, lookupA_updateA_self]

theorem getAttr_updDev_ne {V : Type} [DecidableEq V] (k k' : String) (v : V)
    (d : DeviceRec V) (h : k' ≠ k) : getAttr (updDev k v d) k' = getAttr d k' := by
  simp [getAttr, updDev, lookupA_updateA_ne _ _ _ _ h]

theorem skvBroadcast_stable {V : Type} [DecidableEq V] (fuel : Nat)
    (st : PropState V) (devId k : String) (v : V) (r : Nat)
    (h : getAttr (getDev st r) k = some v) :
    getAttr (getDev (skvBroadcast fuel st devId k v) r) k = some v := by
  rcases (skvBroadcast_frame k v fuel st devId).2.2 r with heq | ⟨-, -, hupd⟩
  · rw [heq, h]
  · rw [hupd]
    exact getAttr_updDev_self k v _

theorem skvStep_bcasts_mono {V : Type} [DecidableEq V]
    (nested : PropState V → String → String → V → PropState V) (devId k : String)
    (v : V) (hnested : ∀ st' id', st'.bcasts ≤ (nested st' id' k v).bcasts)
    (st : PropState V) (i : Nat) :
    st.bcasts ≤ (skvStep nested devId k v st i).bcasts := by
  unfold skvStep
  split
  · exact le_refl _
  · split
    · exact le_refl _
    next r hfr =>
      dsimp only
      split
      · exact le_refl _
      next w hw =>
        split
        · exact le_refl _
        next hv =>
          refine le_trans ?_ (hnested _ _)
          simp [plainSetattr]

theorem skvBroadcast_bcasts_mono {V : Type} [DecidableEq V] (k : String) (v : V) :
    ∀ (fuel : Nat) (st : PropState V) (devId : String),
      st.bcasts ≤ (skvBroadcast fuel st devId k v).bcasts := by
  intro fuel
  induction fuel with
  | zero => exact fun _ _ => le_refl _
  | succ fuel ih =>
    intro st devId
    show st.bcasts ≤ (skvLoop (skvBroadcast fuel) st devId k v).bcasts
    unfold skvLoop
    generalize List.range st.maps.length = is
    induction is generalizing st with
    | nil => exact le_refl _
    | cons i rest ihl =>
      rw [List.foldl_cons]
      exact le_trans (skvStep_bcasts_mono (skvBroadcast fuel) devId k v
        (fun st' id' => ih st' id') st i) (ihl _)

/-- C6 (amended): the assignment that propagation performs goes through the
same propagating `__setattr__`, so it *does* re-invoke the broadcast (see the
counterexample); infinite recursion is nevertheless impossible because the
difference guard only reassigns a record while its value differs from the
propagated one and the assignment itself establishes equality — once a
record holds the propagated value, no nested broadcast of that write ever
changes it again — and each nested invocation is observable only as a
growing broadcast count. -/
theorem propagation_write_guard {V : Type} [DecidableEq V] (fuel : Nat)
    (st : PropState V) (devId k : String) (v : V) (r : Nat)
    (h : getAttr (getDev st r) k = some v) :
    (getAttr (getDev (skvBroadcast fuel st devId k v) r) k = some v) ∧
      st.bcasts ≤ (skvBroadcast fuel st devId k v).bcasts :=
  ⟨skvBroadcast_stable fuel st devId k v r h,
    skvBroadcast_bcasts_mono k v fuel st devId⟩

/-- C6 (witness): a record already holding the propagated value is untouched
by the whole (re-triggering) broadcast. -/
theorem propagation_write_guard_witness :
    (getAttr (getDev c6exState 0) "name" = some 0) ∧
      (getAttr (getDev (skvBroadcast 2 c6exState "d" "name" 0) 0) "name" = some 0) :=
  ⟨by decide, (propagation_write_guard 2 c6exState "d" "name" 0 0 (by decide)).1⟩

/-- C6 (counterexample): with two registered maps holding differing records
for id `"d"`, the originating write `setattr(dev0, "name", 2)` broadcasts
once, and the propagation-initiated assignment on the second map's record —
being the same propagating `setattr` — triggers a *second* broadcast
(`set_device_key_value_multimap` runs twice), refuting "a
propagation-initiated assignment never re-triggers a broadcast". -/
theorem propagation_retriggers_broadcast :
    ((xtSetattr c6exState 0 "name" 2).bcasts = 2) ∧
      (getAttr (getDev (xtSetattr c6exState 0 "name" 2) 1) "name" = some 2) ∧
      (c6exState.bcasts = 0) ∧
      ("name" ∉ FIELDS_TO_EXCLUDE_FROM_SYNC) := by
  decide

theorem WFRefs_of_eq {V : Type} (st st' : PropState V) (hm : st'.maps = st.maps)
    (hl : st'.store.length = st.store.length) (hwf : WFRefs st) : WFRefs st' := by
  intro mp hmp r hr
  rw [hl]
  exact hwf mp (hm ▸ hmp) r hr

theorem findRef_none_of_ge {V : Type} [DecidableEq V] (st : PropState V) (j : Nat)
    (devId : String) (hj : st.maps.length ≤ j) : findRef st j devId = none := by
  rw [findRef, List.getD_eq_getElem?_getD, List.getElem?_eq_none hj]
  rfl

theorem aligned_of_count_zero {V : Type} [DecidableEq V] (st : PropState V)
    (devId k : String) (v : V) (hwf : WFRefs st)
    (h : differCount st devId k v = 0) : AlignedTo st devId k v := by
  intro j r hfr w hw
  by_contra hne
  have hj : j < st.maps.length := by
    by_contra hge
    rw [findRef_none_of_ge st j devId (by omega)] at hfr
    simp at hfr
  have hmem : r ∈ (Finset.range st.store.length).filter
      (fun x => differsAt st devId k v x = true) := by
    rw [Finset.mem_filter, Finset.mem_range]
    refine ⟨findRef_some_lt st j devId r hwf hfr, ?_⟩
    unfold differsAt
    rw [hw]
    simp only [Bool.and_eq_true, List.any_eq_true, decide_eq_true_eq]
    exact ⟨⟨j, List.mem_range.2 hj, by rw [hfr]; exact beq_self_eq_true _⟩, hne⟩
  unfold differCount at h
  rw [Finset.card_eq_zero] at h
  rw [h] at hmem
  simp at hmem

theorem count_zero_of_aligned {V : Type} [DecidableEq V] (st : PropState V)
    (devId k : String) (v : V) (h : AlignedTo st devId k v) :
    differCount st devId k v = 0 := by
  rw [differCount, Finset.card_eq_zero, Finset.filter_eq_empty_iff]
  intro r _
  intro hda
  unfold differsAt at hda
  simp only [Bool.and_eq_true, List.any_eq_true] at hda
  obtain ⟨⟨j, hj, hbeq⟩, hmatch⟩ := hda
  have hfr : findRef st j devId = some r := eq_of_beq hbeq
  cases hw : getAttr (getDev st r) k with
  | none => rw [hw] at hmatch; simp at hmatch
  | some w =>
    rw [hw] at hmatch
    simp only [decide_eq_true_eq] at hmatch
    exact hmatch (h j r hfr w hw)

theorem differCount_le_store {V : Type} [DecidableEq V] (st : PropState V)
    (devId k : String) (v : V) : differCount st devId k v ≤ st.store.length := by
  rw [differCount]
  calc ((Finset.range st.store.length).filter _).card
      ≤ (Finset.range st.store.length).card := Finset.card_filter_le _ _
    _ = st.store.length := Finset.card_range _

theorem differCount_dec {V : Type} [DecidableEq V] (st : PropState V)
    (devId k : String) (v : V) (i r : Nat) (hwf : WFRefs st)
    (hfr : findRef st i devId = some r) (w : V)
    (hw : getAttr (getDev st r) k = some w) (hv : w ≠ v) :
    differCount (plainSetattr st r k v) devId k v < differCount st devId k v := by
  have hlt : r < st.store.length := findRef_some_lt st i devId r hwf hfr
  have hi : i < st.maps.length := by
    by_contra hge
    rw [findRef_none_of_ge st i devId (by omega)] at hfr
    simp at hfr
  have hids : ∀ r', (getDev (plainSetattr st r k v) r').id = (getDev st r').id := by
    intro r'
    by_cases h1 : r' = r
    · subst h1
      rw [getDev_plainSetattr_self st r' k v hlt]
      rfl
    · rw [getDev_plainSetattr_ne st r r' k v h1]
  have hfr' : ∀ j, findRef (plainSetattr st r k v) j devId = findRef st j devId :=
    fun j => findRef_congr st (plainSetattr st r k v) rfl hids j devId
  have hpt : ∀ r', differsAt (plainSetattr st r k v) devId k v r' =
      (differsAt st devId k v r' && !(r' == r)) := by
    intro r'
    by_cases h1 : r' = r
    · subst h1
      have hL : differsAt (plainSetattr st r' k v) devId k v r' = false := by
        unfold differsAt
        rw [getDev_plainSetattr_self st r' k v hlt, getAttr_updDev_self]
        simp
      rw [hL]
      simp
    · have hgd : getDev (plainSetattr st r k v) r' = getDev st r' :=
        getDev_plainSetattr_ne st r r' k v h1
      have hbeq : (r' == r) = false := by
        simp [h1]
      unfold differsAt
      rw [hgd, hbeq]
      simp only [Bool.not_false, Bool.and_true]
      congr 1
      simp only [hfr']
      rfl
  have hrlen : (plainSetattr st r k v).store.length = st.store.length := by
    simp [plainSetattr]
  have hmem : r ∈ (Finset.range st.store.length).filter
      (fun x => differsAt st devId k v x = true) := by
    rw [Finset.mem_filter, Finset.mem_range]
    refine ⟨hlt, ?_⟩
    unfold differsAt
    rw [hw]
    simp only [Bool.and_eq_true, List.any_eq_true, decide_eq_true_eq]
    exact ⟨⟨i, List.mem_range.2 hi, by rw [hfr]; exact beq_self_eq_true _⟩, hv⟩
  have hset : (Finset.range st.store.length).filter
      (fun x => differsAt (plainSetattr st r k v) devId k v x = true) =
      ((Finset.range st.store.length).filter
        (fun x => differsAt st devId k v x = true)).erase r := by
    ext x
    simp only [Finset.mem_filter, Finset.mem_erase, Finset.mem_range, hpt x,
      Bool.and_eq_true, Bool.not_eq_true', beq_eq_false_iff_ne, ne_eq]
    tauto
  rw [differCount, differCount, hrlen, hset, Finset.card_erase_of_mem hmem]
  have hpos : 0 < ((Finset.range st.store.length).filter
      fun x => differsAt st devId k v x = true).card :=
    Finset.card_pos.2 ⟨r, hmem⟩
  omega

theorem skvBroadcast_aligned {V : Type} [DecidableEq V] (k : String) (v : V)
    (hk : k ∉ FIELDS_TO_EXCLUDE_FROM_SYNC) :
    ∀ (fuel : Nat) (st : PropState V) (devId : String), WFRefs st →
      differCount st devId k v ≤ fuel →
      AlignedTo (skvBroadcast fuel st devId k v) devId k v := by
  intro fuel
  induction fuel with
  | zero =>
    intro st devId hwf hcnt
    exact aligned_of_count_zero st devId k v hwf (Nat.le_zero.1 hcnt)
  | succ fuel ih =>
    intro st devId hwf hcnt
    show AlignedTo (skvLoop (skvBroadcast fuel) st devId k v) devId k v
    unfold skvLoop
    have loop : ∀ (is : List Nat) (s : PropState V), WFRefs s →
        differCount s devId k v ≤ fuel + 1 →
        (∀ j, j ∉ is → ∀ r, findRef s j devId = some r →
          ∀ w, getAttr (getDev s r) k = some w → w = v) →
        AlignedTo
          (is.foldl (fun acc i => skvStep (skvBroadcast fuel) devId k v acc i) s)
          devId k v := by
      intro is
      induction is with
      | nil =>
        intro s hwf' hcnt' hpre
        exact fun j r hfr w hw => hpre j (List.not_mem_nil j) r hfr w hw
      | cons i rest ihl =>
        intro s hwf' hcnt' hpre
        rw [List.foldl_cons]
        cases hfr : findRef s i devId with
        | none =>
          have hstep : skvStep (skvBroadcast fuel) devId k v s i = s := by
            unfold skvStep
            rw [if_neg hk, hfr]
          rw [hstep]
          refine ihl s hwf' hcnt' (fun j hj r' hfr' w' hw' => ?_)
          by_cases hji : j = i
          · subst hji
            rw [hfr] at hfr'
            exact absurd hfr' (by simp)
          · exact hpre j (by simp [hji, hj]) r' hfr' w' hw'
        | some r =>
          cases hw : getAttr (getDev s r) k with
          | none =>
            have hstep : skvStep (skvBroadcast fuel) devId k v s i = s := by
              unfold skvStep
              rw [if_neg hk, hfr]
              dsimp only
              rw [hw]
            rw [hstep]
            refine ihl s hwf' hcnt' (fun j hj r' hfr' w' hw' => ?_)
            by_cases hji : j = i
            · subst hji
              rw [hfr] at hfr'
              obtain rfl : r = r' := by simpa using hfr'
              rw [hw] at hw'
              exact absurd hw' (by simp)
            · exact hpre j (by simp [hji, hj]) r' hfr' w' hw'
          | some w =>
            by_cases hv : w = v
            · have hstep : skvStep (skvBroadcast fuel) devId k v s i = s := by
                unfold skvStep
                rw [if_neg hk, hfr]
                dsimp only
                rw [hw]
                dsimp only
                rw [if_pos hv]
              rw [hstep]
              refine ihl s hwf' hcnt' (fun j hj r' hfr' w' hw' => ?_)
              by_cases hji : j = i
              · subst hji
                rw [hfr] at hfr'
                obtain rfl : r = r' := by simpa using hfr'
                rw [hw] at hw'
                obtain rfl : w = w' := by simpa using hw'
                exact hv
              · exact hpre j (by simp [hji, hj]) r' hfr' w' hw'
            · have hid : (getDev s r).id = devId := findRef_some_id s i devId r hfr
              have hstep : skvStep (skvBroadcast fuel) devId k v s i =
                  skvBroadcast fuel
                    { plainSetattr s r k v with
                      bcasts := (plainSetattr s r k v).bcasts + 1 } devId k v := by
                unfold skvStep
                rw [if_neg hk, hfr]
                dsimp only
                rw [hw]
                dsimp only
                rw [if_neg hv, hid]
              rw [hstep]
              have hdec : differCount (plainSetattr s r k v) devId k v <
                  differCount s devId k v :=
                differCount_dec s devId k v i r hwf' hfr w hw hv
              have hcnt2 : differCount
                  { plainSetattr s r k v with
                    bcasts := (plainSetattr s r k v).bcasts + 1 } devId k v ≤ fuel := by
                have heq : differCount
                    { plainSetattr s r k v with
                      bcasts := (plainSetattr s r k v).bcasts + 1 } devId k v =
                    differCount (plainSetattr s r k v) devId k v := rfl
                omega
              have hwf2 : WFRefs
                  { plainSetattr s r k v with
                    bcasts := (plainSetattr s r k v).bcasts + 1 } :=
                WFRefs_of_eq s _ rfl (by simp [plainSetattr]) hwf'
              have halign := ih _ devId hwf2 hcnt2
              have hframe := skvBroadcast_frame k v fuel
                { plainSetattr s r k v with
                  bcasts := (plainSetattr s r k v).bcasts + 1 } devId
              refine ihl _ ?_ ?_ ?_
              · exact WFRefs_of_eq _ _ hframe.1 hframe.2.1 hwf2
              · rw [count_zero_of_aligned _ devId k v halign]
                omega
              · exact fun j _ r' hfr' w' hw' => halign j r' hfr' w' hw'
    refine loop (List.range st.maps.length) st hwf (by omega) ?_
    intro j hj r hfr w hw
    have hge : st.maps.length ≤ j := Nat.le_of_not_lt (by simpa [List.mem_range] using hj)
    rw [findRef_none_of_ge st j devId hge] at hfr
    exact absurd hfr (by simp)

theorem mem_of_lookupA {α β : Type} [DecidableEq α] (l : List (α × β)) (k : α)
    (v : β) (h : lookupA l k = some v) : (k, v) ∈ l := by
  induction l with
  | nil => simp [lookupA] at h
  | cons pr rest ih =>
    obtain ⟨a, b⟩ := pr
    by_cases ha : a = k
    · subst ha
      have : b = v := by simpa [lookupA] using h
      subst this
      exact List.mem_cons_self ..
    · simp only [lookupA, if_neg ha] at h
      exact List.mem_cons_of_mem _ (ih h)

theorem getDev_mem {V : Type} (st : PropState V) (r : Nat)
    (h : r < st.store.length) : getDev st r ∈ st.store := by
  rw [getDev, List.getD_eq_getElem?_getD, List.getElem?_eq_getElem h]
  exact List.getElem_mem _

theorem plainSetattr_noop {V : Type} [DecidableEq V] (s : PropState V) (r : Nat)
    (k : String) (v : V) (h : lookupA (getDev s r).attrs k = some v) :
    plainSetattr s r k v = s := by
  unfold plainSetattr
  rw [show ({ getDev s r with attrs := updateA (getDev s r).attrs k v } : DeviceRec V) =
      getDev s r from by rw [updateA_self_of_lookup _ _ _ h]]
  rw [show s.store.set r (getDev s r) = s.store from set_getD_self s.store r default]

/-- Effect of one self-assignment `setattr(master, kk, vv)` during the
realignment pass, where `vv` is the master record's current value at `kk`:
the master record itself is untouched, registry structure / ids / key sets
are preserved, for a non-excluded key every registered view of the master's
id converges to `vv`, previously established alignment at other keys
survives, and records of other ids are untouched. -/
theorem xtSetattr_master_step {V : Type} [DecidableEq V] (s : PropState V)
    (rm : Nat) (kk : String) (vv : V) (hwfS : WFRefs s)
    (hlkS : lookupA (getDev s rm).attrs kk = some vv) :
    ((xtSetattr s rm kk vv).maps = s.maps ∧
      (xtSetattr s rm kk vv).store.length = s.store.length ∧
      WFRefs (xtSetattr s rm kk vv)) ∧
    getDev (xtSetattr s rm kk vv) rm = getDev s rm ∧
    (∀ r, (getDev (xtSetattr s rm kk vv) r).id = (getDev s r).id) ∧
    (∀ r, (getDev (xtSetattr s rm kk vv) r).attrs.map Prod.fst =
      (getDev s r).attrs.map Prod.fst) ∧
    (kk ∉ FIELDS_TO_EXCLUDE_FROM_SYNC →
      AlignedTo (xtSetattr s rm kk vv) (getDev s rm).id kk vv) ∧
    (∀ devId k₀ v₀, k₀ ≠ kk → AlignedTo s devId k₀ v₀ →
      AlignedTo (xtSetattr s rm kk vv) devId k₀ v₀) ∧
    (∀ r, (getDev s r).id ≠ (getDev s rm).id →
      getDev (xtSetattr s rm kk vv) r = getDev s r) := by
  have hnoop : plainSetattr s rm kk vv = s := plainSetattr_noop s rm kk vv hlkS
  by_cases hk : kk ∈ FIELDS_TO_EXCLUDE_FROM_SYNC
  · have hx : xtSetattr s rm kk vv = s := by
      unfold xtSetattr
      rw [hnoop, if_pos hk]
    rw [hx]
    exact ⟨⟨rfl, rfl, hwfS⟩, rfl, fun _ => rfl, fun _ => rfl,
      fun hke => absurd hk hke, fun _ _ _ _ hal => hal, fun _ _ => rfl⟩
  · have hx : xtSetattr s rm kk vv =
        skvBroadcast (bigFuel s) { s with bcasts := s.bcasts + 1 }
          (getDev s rm).id kk vv := by
      unfold xtSetattr setKeyValueMultimap
      rw [hnoop, if_neg hk, if_neg hk]
    have hframe := skvBroadcast_frame kk vv (bigFuel s)
      { s with bcasts := s.bcasts + 1 } (getDev s rm).id
    have hmaps : (skvBroadcast (bigFuel s) { s with bcasts := s.bcasts + 1 }
        (getDev s rm).id kk vv).maps = s.maps := hframe.1
    have hlen : (skvBroadcast (bigFuel s) { s with bcasts := s.bcasts + 1 }
        (getDev s rm).id kk vv).store.length = s.store.length := hframe.2.1
    have hdevs := hframe.2.2
    have hwfB : WFRefs { s with bcasts := s.bcasts + 1 } :=
      WFRefs_of_eq s _ rfl rfl hwfS
    have hcnt : differCount { s with bcasts := s.bcasts + 1 }
        (getDev s rm).id kk vv ≤ bigFuel s :=
      differCount_le_store _ _ _ _
    have halign : AlignedTo (skvBroadcast (bigFuel s) { s with bcasts := s.bcasts + 1 }
        (getDev s rm).id kk vv) (getDev s rm).id kk vv :=
      skvBroadcast_aligned kk vv hk (bigFuel s) _ _ hwfB hcnt
    rw [hx]
    refine ⟨⟨hmaps, hlen, WFRefs_of_eq s _ hmaps hlen hwfS⟩, ?_, ?_, ?_, ?_, ?_, ?_⟩
    · rcases hdevs rm with heq | ⟨-, -, hupd⟩
      · exact heq
      · rw [hupd]
        show updDev kk vv (getDev s rm) = getDev s rm
        unfold updDev
        rw [updateA_self_of_lookup _ _ _ hlkS]
    · intro r
      rcases hdevs r with heq | ⟨-, -, hupd⟩
      · rw [heq]; rfl
      · rw [hupd]; rfl
    · intro r
      rcases hdevs r with heq | ⟨-, ⟨w, hw⟩, hupd⟩
      · rw [heq]; rfl
      · rw [hupd]
        show (updateA (getDev s r).attrs kk vv).map Prod.fst = _
        have hw' : lookupA (getDev s r).attrs kk = some w := hw
        exact updateA_map_fst_of_lookup _ _ _ (by rw [hw']; rfl)
    · intro _
      exact halign
    · intro devId k₀ v₀ hne hal
      intro j r hfr w hw
      have hids : ∀ r', (getDev (skvBroadcast (bigFuel s)
          { s with bcasts := s.bcasts + 1 } (getDev s rm).id kk vv) r').id =
          (getDev s r').id := by
        intro r'
        rcases hdevs r' with heq | ⟨-, -, hupd⟩
        · rw [heq]; rfl
        · rw [hupd]; rfl
      have hfr0 : findRef s j devId = some r := by
        rw [← findRef_congr s _ hmaps hids j devId]
        exact hfr
      have hattr : getAttr (getDev (skvBroadcast (bigFuel s)
          { s with bcasts := s.bcasts + 1 } (getDev s rm).id kk vv) r) k₀ =
          getAttr (getDev s r) k₀ := by
        rcases hdevs r with heq | ⟨-, -, hupd⟩
        · rw [heq]; rfl
        · rw [hupd]
          exact getAttr_updDev_ne kk k₀ vv _ hne
      rw [hattr] at hw
      exact hal j r hfr0 w hw
    · intro r hne
      rcases hdevs r with heq | ⟨hid, -, -⟩
      · rw [heq]; rfl
      · exact absurd hid hne

/-- Effect of the self-assignment loop of `_align_multi_map_devices` over a
list `todo` of (key, current master value) pairs, stated as an invariant over
an intermediate state `s` reached from `st`: structure is preserved, every
non-excluded processed pair ends aligned across all registered maps, existing
alignment at master-value keys (of this id) and at other ids survives, and
records of other ids are untouched. -/
theorem alignFold_spec {V : Type} [DecidableEq V] (st : PropState V) (rm : Nat) :
    ∀ (todo : List (String × V)) (s : PropState V),
      getDev s rm = getDev st rm → WFRefs s → s.maps = st.maps →
      s.store.length = st.store.length →
      (∀ r, (getDev s r).id = (getDev st r).id) →
      (∀ r, (getDev s r).attrs.map Prod.fst = (getDev st r).attrs.map Prod.fst) →
      (∀ p ∈ todo, lookupA (getDev st rm).attrs p.1 = some p.2) →
      (getDev (todo.foldl (fun acc kv => xtSetattr acc rm kv.1 kv.2) s) rm =
          getDev st rm ∧
        WFRefs (todo.foldl (fun acc kv => xtSetattr acc rm kv.1 kv.2) s) ∧
        (todo.foldl (fun acc kv => xtSetattr acc rm kv.1 kv.2) s).maps = st.maps ∧
        (todo.foldl (fun acc kv => xtSetattr acc rm kv.1 kv.2) s).store.length =
          st.store.length) ∧
      (∀ r, (getDev (todo.foldl (fun acc kv => xtSetattr acc rm kv.1 kv.2) s) r).id =
        (getDev st r).id) ∧
      (∀ r, (getDev (todo.foldl (fun acc kv => xtSetattr acc rm kv.1 kv.2) s) r).attrs.map
          Prod.fst = (getDev st r).attrs.map Prod.fst) ∧
      (∀ kk vv, (kk, vv) ∈ todo → kk ∉ FIELDS_TO_EXCLUDE_FROM_SYNC →
        AlignedTo (todo.foldl (fun acc kv => xtSetattr acc rm kv.1 kv.2) s)
          (getDev st rm).id kk vv) ∧
      (∀ kk vv, kk ∉ FIELDS_TO_EXCLUDE_FROM_SYNC →
        lookupA (getDev st rm).attrs kk = some vv →
        AlignedTo s (getDev st rm).id kk vv →
        AlignedTo (todo.foldl (fun acc kv => xtSetattr acc rm kv.1 kv.2) s)
          (getDev st rm).id kk vv) ∧
      (∀ devId kk vv, devId ≠ (getDev st rm).id → AlignedTo s devId kk vv →
        AlignedTo (todo.foldl (fun acc kv => xtSetattr acc rm kv.1 kv.2) s)
          devId kk vv) ∧
      (∀ r, (getDev st r).id ≠ (getDev st rm).id →
        getDev (todo.foldl (fun acc kv => xtSetattr acc rm kv.1 kv.2) s) r =
          getDev s r) := by
  intro todo
  induction todo with
  | nil =>
    intro s h1 hwf hmaps hlen hids hkeys _
    exact ⟨⟨h1, hwf, hmaps, hlen⟩, hids, hkeys, fun kk vv hm => by simp at hm,
      fun _ _ _ _ hal => hal, fun _ _ _ _ hal => hal, fun _ _ => rfl⟩
  | cons p todo' ih =>
    intro s h1 hwf hmaps hlen hids hkeys htodo
    obtain ⟨kk, vv⟩ := p
    have hlkst : lookupA (getDev st rm).attrs kk = some vv :=
      htodo (kk, vv) (List.mem_cons_self ..)
    have hlkS : lookupA (getDev s rm).attrs kk = some vv := by
      rw [h1]; exact hlkst
    obtain ⟨⟨smaps, slen, swf⟩, smaster, sids, skeys, salign, spres, sframe⟩ :=
      xtSetattr_master_step s rm kk vv hwf hlkS
    have hidm : (getDev s rm).id = (getDev st rm).id := by rw [h1]
    have h1' : getDev (xtSetattr s rm kk vv) rm = getDev st rm := smaster.trans h1
    have hmaps' : (xtSetattr s rm kk vv).maps = st.maps := smaps.trans hmaps
    have hlen' : (xtSetattr s rm kk vv).store.length = st.store.length :=
      slen.trans hlen
    have hids' : ∀ r, (getDev (xtSetattr s rm kk vv) r).id = (getDev st r).id :=
      fun r => (sids r).trans (hids r)
    have hkeys' : ∀ r, (getDev (xtSetattr s rm kk vv) r).attrs.map Prod.fst =
        (getDev st r).attrs.map Prod.fst :=
      fun r => (skeys r).trans (hkeys r)
    have hpresO : ∀ devId k₀ v₀, devId ≠ (getDev st rm).id →
        AlignedTo s devId k₀ v₀ → AlignedTo (xtSetattr s rm kk vv) devId k₀ v₀ := by
      intro devId k₀ v₀ hne hal j r hfr w hw
      have hidr : (getDev (xtSetattr s rm kk vv) r).id = devId :=
        findRef_some_id _ j devId r hfr
      have hidr0 : (getDev s r).id = devId := (sids r).symm.trans hidr
      have hfixed : getDev (xtSetattr s rm kk vv) r = getDev s r :=
        sframe r (by rw [hidr0, hidm]; exact hne)
      have hfr0 : findRef s j devId = some r := by
        rw [← findRef_congr s (xtSetattr s rm kk vv) smaps sids j devId]
        exact hfr
      rw [hfixed] at hw
      exact hal j r hfr0 w hw
    obtain ⟨⟨fmaster, fwf, fmaps, flen⟩, fids, fkeys, falign, fpresS, fpresO, fframe⟩ :=
      ih (xtSetattr s rm kk vv) h1' swf hmaps' hlen' hids' hkeys'
        (fun p hp => htodo p (List.mem_cons_of_mem _ hp))
    simp only [List.foldl_cons]
    refine ⟨⟨fmaster, fwf, fmaps, flen⟩, fids, fkeys, ?_, ?_, ?_, ?_⟩
    · intro kk₀ vv₀ hm hke
      rcases List.mem_cons.1 hm with heq | hmem
      · injection heq with heq1 heq2
        subst heq1; subst heq2
        refine fpresS kk₀ vv₀ hke hlkst ?_
        rw [← hidm]
        exact salign hke
      · exact falign kk₀ vv₀ hmem hke
    · intro kk₀ vv₀ hke hlk₀ hal
      by_cases hkq : kk₀ = kk
      · subst hkq
        have hv : vv₀ = vv := by
          rw [hlk₀] at hlkst
          exact Option.some_inj.1 hlkst
        subst hv
        refine fpresS kk₀ vv₀ hke hlk₀ ?_
        rw [← hidm]
        exact salign hke
      · exact fpresS kk₀ vv₀ hke hlk₀
          (by rw [← hidm] at hal ⊢; exact spres _ kk₀ vv₀ hkq hal)
    · intro devId k₀ v₀ hne hal
      exact fpresO devId k₀ v₀ hne (hpresO devId k₀ v₀ hne hal)
    · intro r hne
      refine (fframe r hne).trans (sframe r ?_)
      rw [hids r, hidm]
      exact hne

theorem mem_getLastD_mem {α : Type} :
    ∀ (l : List (List α)) (d : List α) (x : α), x ∈ l.getLastD d →
      (∃ mp ∈ l, x ∈ mp) ∨ x ∈ d := by
  intro l
  induction l with
  | nil => intro d x h; exact Or.inr h
  | cons a rest ih =>
    intro d x h
    rw [List.getLastD_cons] at h
    rcases ih a x h with ⟨mp, hmp, hx⟩ | hx
    · exact Or.inl ⟨mp, List.mem_cons_of_mem _ hmp, hx⟩
    · exact Or.inl ⟨a, List.mem_cons_self .., hx⟩

/-- Effect of the outer loop of `_align_multi_map_devices` over a list `ms`
of master-record store references with pairwise distinct device ids:
structure, ids and key sets are preserved, every non-excluded field of every
processed master record ends aligned (to the master's value) across all
registered maps, and alignment of ids not in `ms` survives. -/
theorem alignPass_spec {V : Type} [DecidableEq V] (st : PropState V)
    (hnd : ∀ d ∈ st.store, (d.attrs.map Prod.fst).Nodup) :
    ∀ (ms : List Nat) (s : PropState V),
      WFRefs s → s.maps = st.maps → s.store.length = st.store.length →
      (∀ r, (getDev s r).id = (getDev st r).id) →
      (∀ r, (getDev s r).attrs.map Prod.fst = (getDev st r).attrs.map Prod.fst) →
      (∀ rm ∈ ms, rm < st.store.length) →
      (∀ rm ∈ ms, getDev s rm = getDev st rm) →
      (ms.map fun r => (getDev st r).id).Nodup →
      (WFRefs (ms.foldl alignDevice s) ∧
        (ms.foldl alignDevice s).maps = st.maps ∧
        (ms.foldl alignDevice s).store.length = st.store.length) ∧
      (∀ r, (getDev (ms.foldl alignDevice s) r).id = (getDev st r).id) ∧
      (∀ r, (getDev (ms.foldl alignDevice s) r).attrs.map Prod.fst =
        (getDev st r).attrs.map Prod.fst) ∧
      (∀ rm ∈ ms, ∀ kk vv, lookupA (getDev st rm).attrs kk = some vv →
        kk ∉ FIELDS_TO_EXCLUDE_FROM_SYNC →
        AlignedTo (ms.foldl alignDevice s) (getDev st rm).id kk vv) ∧
      (∀ devId kk vv, devId ∉ ms.map (fun r => (getDev st r).id) →
        AlignedTo s devId kk vv → AlignedTo (ms.foldl alignDevice s) devId kk vv) := by
  intro ms
  induction ms with
  | nil =>
    intro s hwf hmaps hlen hids hkeys _ _ _
    exact ⟨⟨hwf, hmaps, hlen⟩, hids, hkeys, fun rm hm => by simp at hm,
      fun _ _ _ _ hal => hal⟩
  | cons rm ms' ih =>
    intro s hwf hmaps hlen hids hkeys hbound hmast hnodup
    have hrm : rm < st.store.length := hbound rm (List.mem_cons_self ..)
    have hsm : getDev s rm = getDev st rm := hmast rm (List.mem_cons_self ..)
    have htodo : ∀ p ∈ (getDev st rm).attrs,
        lookupA (getDev st rm).attrs p.1 = some p.2 := by
      intro p hp
      exact nodup_lookupA_of_mem _ (hnd _ (getDev_mem st rm hrm)) p.1 p.2 hp
    have hstep : alignDevice s rm =
        (getDev st rm).attrs.foldl (fun acc kv => xtSetattr acc rm kv.1 kv.2) s := by
      rw [alignDevice, hsm]
    obtain ⟨⟨Fmaster, Fwf, Fmaps, Flen⟩, Fids, Fkeys, Falign, FpresS, FpresO, Fframe⟩ :=
      alignFold_spec st rm (getDev st rm).attrs s hsm hwf hmaps hlen hids hkeys htodo
    simp only [List.map_cons, List.nodup_cons] at hnodup
    have hmast' : ∀ rm' ∈ ms', getDev (alignDevice s rm) rm' = getDev st rm' := by
      intro rm' hm
      have hne : (getDev st rm').id ≠ (getDev st rm).id := by
        intro he
        exact hnodup.1 (List.mem_map.2 ⟨rm', hm, he⟩)
      rw [hstep, Fframe rm' hne]
      exact hmast rm' (List.mem_cons_of_mem _ hm)
    have hwf1 : WFRefs (alignDevice s rm) := by rw [hstep]; exact Fwf
    have hmaps1 : (alignDevice s rm).maps = st.maps := by rw [hstep]; exact Fmaps
    have hlen1 : (alignDevice s rm).store.length = st.store.length := by
      rw [hstep]; exact Flen
    have hids1 : ∀ r, (getDev (alignDevice s rm) r).id = (getDev st r).id := by
      intro r; rw [hstep]; exact Fids r
    have hkeys1 : ∀ r, (getDev (alignDevice s rm) r).attrs.map Prod.fst =
        (getDev st r).attrs.map Prod.fst := by
      intro r; rw [hstep]; exact Fkeys r
    obtain ⟨⟨Gwf, Gmaps, Glen⟩, Gids, Gkeys, Galign, GpresO⟩ :=
      ih (alignDevice s rm) hwf1 hmaps1 hlen1 hids1 hkeys1
        (fun r hr => hbound r (List.mem_cons_of_mem _ hr)) hmast' hnodup.2
    simp only [List.foldl_cons]
    refine ⟨⟨Gwf, Gmaps, Glen⟩, Gids, Gkeys, ?_, ?_⟩
    · intro rm₀ hm kk vv hlk hke
      rcases List.mem_cons.1 hm with heq | hmem
      · subst heq
        refine GpresO _ kk vv hnodup.1 ?_
        rw [hstep]
        exact Falign kk vv (mem_of_lookupA _ kk vv hlk) hke
      · exact Galign rm₀ hmem kk vv hlk hke
    · intro devId kk vv hne hal
      simp only [List.map_cons, List.mem_cons, not_or] at hne
      refine GpresO devId kk vv hne.2 ?_
      rw [hstep]
      exact FpresO devId kk vv hne.1 hal

/-- C1: cross-map convergence after the realignment pass.  For a well-formed
registry state in which the master map (registered last) has pairwise
distinct device ids, covers every id any registered map resolves, and
same-id records carry the same attribute keys (as produced by the merge),
`_align_multi_map_devices` leaves any two registered maps that both resolve
a device id in agreement on every field outside
`FIELDS_TO_EXCLUDE_FROM_SYNC`. -/
theorem align_multi_map_convergence {V : Type} [DecidableEq V] (st : PropState V)
    (hwf : WFState st)
    (hidnodup : ((st.maps.getLastD []).map fun r => (getDev st r).id).Nodup)
    (hcover : ∀ j < st.maps.length, ∀ r ∈ st.maps.getD j [],
      ∃ rm ∈ st.maps.getLastD [], (getDev st rm).id = (getDev st r).id)
    (hkeys : ∀ r1 < st.store.length, ∀ r2 < st.store.length,
      (getDev st r1).id = (getDev st r2).id →
      (getDev st r1).attrs.map Prod.fst = (getDev st r2).attrs.map Prod.fst)
    (i j : Nat) (devId : String) (r1 r2 : Nat) (k : String)
    (h1 : findRef (alignMultiMapDevices st) i devId = some r1)
    (h2 : findRef (alignMultiMapDevices st) j devId = some r2)
    (hk : k ∉ FIELDS_TO_EXCLUDE_FROM_SYNC) :
    getAttr (getDev (alignMultiMapDevices st) r1) k =
      getAttr (getDev (alignMultiMapDevices st) r2) k := by
  have hbound : ∀ rm ∈ st.maps.getLastD [], rm < st.store.length := by
    intro rm hm
    rcases mem_getLastD_mem st.maps [] rm hm with ⟨mp, hmp, hr⟩ | hx
    · exact hwf.1 mp hmp rm hr
    · simp at hx
  obtain ⟨⟨Pwf, Pmaps, Plen⟩, Pids, Pkeys, Palign, -⟩ :=
    alignPass_spec st hwf.2 (st.maps.getLastD []) st hwf.1 rfl rfl
      (fun _ => rfl) (fun _ => rfl) hbound (fun _ _ => rfl) hidnodup
  have Pmaps' : (alignMultiMapDevices st).maps = st.maps := Pmaps
  have Pids' : ∀ r, (getDev (alignMultiMapDevices st) r).id = (getDev st r).id := Pids
  have Pkeys' : ∀ r, (getDev (alignMultiMapDevices st) r).attrs.map Prod.fst =
      (getDev st r).attrs.map Prod.fst := Pkeys
  have Palign' : ∀ rm ∈ st.maps.getLastD [], ∀ kk vv,
      lookupA (getDev st rm).attrs kk = some vv → kk ∉ FIELDS_TO_EXCLUDE_FROM_SYNC →
      AlignedTo (alignMultiMapDevices st) (getDev st rm).id kk vv := Palign
  have h1' : findRef st i devId = some r1 := by
    rw [← findRef_congr st (alignMultiMapDevices st) Pmaps' Pids' i devId]
    exact h1
  have h2' : findRef st j devId = some r2 := by
    rw [← findRef_congr st (alignMultiMapDevices st) Pmaps' Pids' j devId]
    exact h2
  have hid1 : (getDev st r1).id = devId := findRef_some_id st i devId r1 h1'
  have hid2 : (getDev st r2).id = devId := findRef_some_id st j devId r2 h2'
  have hr1 : r1 < st.store.length := findRef_some_lt st i devId r1 hwf.1 h1'
  have hr2 : r2 < st.store.length := findRef_some_lt st j devId r2 hwf.1 h2'
  have hmem1 : r1 ∈ st.maps.getD i [] := List.mem_of_find?_eq_some h1'
  have hi : i < st.maps.length := by
    by_contra hni
    rw [List.getD_eq_getElem?_getD, List.getElem?_eq_none (by omega)] at hmem1
    simp at hmem1
  obtain ⟨rm, hrmm, hrmid⟩ := hcover i hi r1 hmem1
  have hrmb : rm < st.store.length := hbound rm hrmm
  have hidrm : (getDev st rm).id = devId := hrmid.trans hid1
  have hkeq1 : (getDev st r1).attrs.map Prod.fst =
      (getDev st rm).attrs.map Prod.fst :=
    hkeys r1 hr1 rm hrmb (by rw [hid1, hidrm])
  have hkeq2 : (getDev st r2).attrs.map Prod.fst =
      (getDev st rm).attrs.map Prod.fst :=
    hkeys r2 hr2 rm hrmb (by rw [hid2, hidrm])
  by_cases hc : (lookupA (getDev st rm).attrs k).isSome
  · obtain ⟨vv, hvv⟩ := Option.isSome_iff_exists.1 hc
    have halign : AlignedTo (alignMultiMapDevices st) devId k vv := by
      have := Palign' rm hrmm k vv hvv hk
      rw [hidrm] at this
      exact this
    have hs1 : (lookupA (getDev (alignMultiMapDevices st) r1).attrs k).isSome := by
      rw [lookupA_isSome_iff_mem, Pkeys' r1, hkeq1]
      exact (lookupA_isSome_iff_mem _ k).1 hc
    have hs2 : (lookupA (getDev (alignMultiMapDevices st) r2).attrs k).isSome := by
      rw [lookupA_isSome_iff_mem, Pkeys' r2, hkeq2]
      exact (lookupA_isSome_iff_mem _ k).1 hc
    obtain ⟨w1, hw1⟩ := Option.isSome_iff_exists.1 hs1
    obtain ⟨w2, hw2⟩ := Option.isSome_iff_exists.1 hs2
    have hwa1 : getAttr (getDev (alignMultiMapDevices st) r1) k = some w1 := hw1
    have hwa2 : getAttr (getDev (alignMultiMapDevices st) r2) k = some w2 := hw2
    rw [hwa1, hwa2, halign i r1 h1 w1 hwa1, halign j r2 h2 w2 hwa2]
  · have hn1 : getAttr (getDev (alignMultiMapDevices st) r1) k = none := by
      apply Option.not_isSome_iff_eq_none.1
      show ¬ (lookupA (getDev (alignMultiMapDevices st) r1).attrs k).isSome = true
      rw [lookupA_isSome_iff_mem, Pkeys' r1, hkeq1, ← lookupA_isSome_iff_mem]
      exact hc
    have hn2 : getAttr (getDev (alignMultiMapDevices st) r2) k = none := by
      apply Option.not_isSome_iff_eq_none.1
      show ¬ (lookupA (getDev (alignMultiMapDevices st) r2).attrs k).isSome = true
      rw [lookupA_isSome_iff_mem, Pkeys' r2, hkeq2, ← lookupA_isSome_iff_mem]
      exact hc
    rw [hn1, hn2]

/-- C1 witness: on the concrete registry `c1exState` (two per-source maps
whose `"name"` values for device `"d"` differ, plus the master map sharing
the first record) the hypotheses hold, the two per-source maps still resolve
`"d"` after the realignment pass, and their records then agree on
`"name"`. -/
theorem align_multi_map_convergence_witness :
    findRef (alignMultiMapDevices c1exState) 0 "d" = some 0 ∧
    findRef (alignMultiMapDevices c1exState) 1 "d" = some 1 ∧
    getAttr (getDev (alignMultiMapDevices c1exState) 0) "name" =
      getAttr (getDev (alignMultiMapDevices c1exState) 1) "name" :=
  ⟨by decide, by decide,
    align_multi_map_convergence c1exState ⟨by unfold WFRefs; decide, by decide⟩ (by decide)
      (by decide) (by decide) 0 1 "d" 0 1 "name" (by decide) (by decide)
      (by decide)⟩

end XT
